import Mathlib

/-!
Verification of the SwiftSSH configuration engine against its specification.

The Go sources are shallowly embedded: file contents are `String`s (lists of
`Char`s), Go string helpers (`strings.TrimSpace`, `strings.HasPrefix`,
`strings.Contains`, `strings.Split`, `strings.ToLower`, `strings.EqualFold`,
`strings.Trim`) are modelled by executable char-list functions restricted to
ASCII whitespace and ASCII case, `bufio`'s line scanner is modelled by
`splitLinesData`, and file-system effects are threaded explicitly.
-/

namespace SwiftSSH

/-! ## Character-level string primitives (models of Go `strings` helpers) -/

/-- Model of `strings.TrimSpace` restricted to ASCII whitespace:
drop whitespace from both ends of the character list. -/
def trimChars (cs : List Char) : List Char :=
  ((cs.dropWhile Char.isWhitespace).reverse.dropWhile Char.isWhitespace).reverse

/-- `strings.TrimSpace` on strings. -/
def trimSpace (s : String) : String :=
  ⟨trimChars s.data⟩

/-- Model of `strings.HasPrefix`. -/
def hasPfx (s p : String) : Bool :=
  p.data.isPrefixOf s.data

/-- Model of `strings.ToLower` restricted to ASCII case mapping. -/
def toLowerStr (s : String) : String :=
  ⟨s.data.map Char.toLower⟩

/-- Model of `strings.EqualFold` restricted to ASCII case folding. -/
def equalFold (a b : String) : Bool :=
  toLowerStr a = toLowerStr b

/-- Substring search on character lists (model of `strings.Contains`). -/
def containsSub (hay pat : List Char) : Bool :=
  if pat.isPrefixOf hay then true
  else
    match hay with
    | [] => false
    | _ :: t => containsSub t pat

/-- Model of `strings.Contains`. -/
def containsStr (s sub : String) : Bool :=
  containsSub s.data sub.data

/-- Split a character list on a separator character
(model of `strings.Split` with a one-character separator). -/
def splitChar (sep : Char) : List Char → List (List Char)
  | [] => [[]]
  | c :: rest =>
    match splitChar sep rest with
    | [] => [[]]
    | g :: gs => if c = sep then [] :: g :: gs else (c :: g) :: gs

/-- Model of `strings.Trim(s, string(c))`: remove every leading and trailing
occurrence of the character `c`. -/
def trimCharBoth (c : Char) (s : String) : String :=
  ⟨((s.data.dropWhile (· = c)).reverse.dropWhile (· = c)).reverse⟩

/-- First occurrence split (model of `strings.Index(s, string(sep)) >= 0`
together with the two slices around it). -/
def splitFirstChar (sep : Char) : List Char → Option (List Char × List Char)
  | [] => none
  | c :: rest =>
    if c = sep then some ([], rest)
    else (splitFirstChar sep rest).map (fun p => (c :: p.1, p.2))

/-- Model of `strings.Join` (Go joins with the separator in between). -/
def joinStr (sep : String) : List String → String
  | [] => ""
  | [s] => s
  | s :: rest => s ++ sep ++ joinStr sep rest

/-! ## Line splitting: model of `bufio.Scanner` with `ScanLines`

`ScanLines` yields each line without its terminator, dropping a single
trailing `\r` (CRLF convention); a final unterminated line is still yielded;
an empty input yields no lines. -/

/-- Drop a single trailing carriage return, as `bufio`'s `dropCR` does. -/
def dropCR (cs : List Char) : List Char :=
  if cs.getLast? = some '\r' then cs.dropLast else cs

theorem length_dropWhile_le (p : Char → Bool) (l : List Char) :
    (l.dropWhile p).length ≤ l.length := by
  induction l with
  | nil => simp [List.dropWhile]
  | cons c rest ih =>
    by_cases h : p c
    · simp [List.dropWhile, h]; omega
    · simp [List.dropWhile, h]

/-- Structural worker for line splitting: `acc` holds the characters of the
line being read, in reverse order. -/
def splitLinesCore : List Char → List Char → List (List Char)
  | [], acc => [dropCR acc.reverse]
  | c :: rest, acc =>
    if c = '\n' then
      if rest = [] then [dropCR acc.reverse]
      else dropCR acc.reverse :: splitLinesCore rest []
    else splitLinesCore rest (c :: acc)

/-- Split raw bytes into lines exactly as `bufio.Scanner`/`ScanLines` does. -/
def splitLinesData (cs : List Char) : List (List Char) :=
  if cs = [] then [] else splitLinesCore cs []

theorem splitLinesCore_eq (cs : List Char) : ∀ acc : List Char,
    splitLinesCore cs acc =
      if cs.dropWhile (· ≠ '\n') = [] then
        [dropCR (acc.reverse ++ cs.takeWhile (· ≠ '\n'))]
      else
        dropCR (acc.reverse ++ cs.takeWhile (· ≠ '\n'))
          :: splitLinesData ((cs.dropWhile (· ≠ '\n')).tail) := by
  induction cs with
  | nil =>
    intro acc
    simp [splitLinesCore]
  | cons c rest ih =>
    intro acc
    by_cases hc : c = '\n'
    · subst hc
      simp only [splitLinesCore, if_pos rfl]
      have hdw : (('\n' :: rest : List Char)).dropWhile (· ≠ '\n')
          = '\n' :: rest := by
        simp [List.dropWhile]
      have htw : (('\n' :: rest : List Char)).takeWhile (· ≠ '\n') = [] := by
        simp [List.takeWhile]
      rw [hdw, htw]
      rw [if_neg (by simp : ('\n' :: rest : List Char) ≠ [])]
      by_cases hrest : rest = []
      · subst hrest
        simp [splitLinesData]
      · rw [if_neg hrest]
        simp only [List.tail_cons, List.append_nil]
        rw [splitLinesData, if_neg hrest]
        simp
    · simp only [splitLinesCore, if_neg hc]
      rw [ih (c :: acc)]
      have hdw : ((c :: rest : List Char)).dropWhile (· ≠ '\n')
          = rest.dropWhile (· ≠ '\n') := by
        simp [List.dropWhile, hc]
      have htw : ((c :: rest : List Char)).takeWhile (· ≠ '\n')
          = c :: rest.takeWhile (· ≠ '\n') := by
        simp [List.takeWhile, hc]
      rw [hdw, htw]
      simp only [List.reverse_cons, List.append_assoc, List.cons_append,
        List.nil_append]

/-- The original `writer.go`-style unfolding of `splitLinesData`. -/
theorem splitLinesData_unfold (cs : List Char) :
    splitLinesData cs =
      if hcs : cs = [] then []
      else
        let line := cs.takeWhile (· ≠ '\n')
        let rem := cs.dropWhile (· ≠ '\n')
        if hrem : rem = [] then [dropCR line]
        else dropCR line :: splitLinesData rem.tail := by
  by_cases hcs : cs = []
  · subst hcs
    simp [splitLinesData]
  · rw [dif_neg hcs]
    rw [splitLinesData, if_neg hcs]
    rw [splitLinesCore_eq cs []]
    dsimp only
    by_cases hrem : cs.dropWhile (· ≠ '\n') = []
    · rw [if_pos hrem, dif_pos hrem]
      simp
    · rw [if_neg hrem, dif_neg hrem]
      simp

/-- `splitLines` from `writer.go`: split file contents into lines,
stripping `\r` from CRLF endings. -/
def splitLines (s : String) : List String :=
  (splitLinesData s.data).map (fun cs => ⟨cs⟩)

/-! ## Data model (`config/types.go`) -/

/-- `config.Host`: a single SSH host entry.  Go's `int` line number is
modelled as `Nat` (the parser only ever assigns positive values, and the
writer treats `0` as the stale sentinel). -/
structure Host where
  aliasName : String
  hostname : String
  user : String
  port : String
  identityFile : String
  groups : List String
  sourceFile : String
  lineStart : Nat
deriving Repr, DecidableEq

/-! ## Parser (`config/parser.go`) -/

/-- Split a trimmed line at the first space or tab into keyword and value
(`strings.IndexAny(trimmed, " \t")` followed by `strings.TrimSpace` of the
remainder); `none` when the line has no whitespace (keyword only). -/
def parseKeywordValue (trimmed : String) : Option (String × String) :=
  let kw := trimmed.data.takeWhile (fun c => ¬ (c = ' ' ∨ c = '\t'))
  let rest := trimmed.data.dropWhile (fun c => ¬ (c = ' ' ∨ c = '\t'))
  if rest = [] then none
  else some (⟨kw⟩, trimSpace ⟨rest.drop 1⟩)

/-- `parseMagicComment` from `parser.go`: extract groups from a
`# @group a, b` magic-comment line; `[]` (Go `nil`) when the line is not a
magic comment or carries no non-empty tags. -/
def parseMagicComment (line : String) : List String :=
  let trimmed := trimSpace line
  if ¬ hasPfx trimmed "#" then []
  else
    let rest := trimSpace ⟨trimmed.data.drop 1⟩
    if ¬ hasPfx rest "@group" then []
    else
      let tagsPart := trimSpace ⟨rest.data.drop 6⟩
      if tagsPart = "" then []
      else
        ((splitChar ',' tagsPart.data).map (fun g => trimSpace ⟨g⟩)).filter
          (fun g => g ≠ "")

/-- Classify a line as the parser's main loop does: `none` for blank lines,
comment lines and keyword-only lines, otherwise the lower-cased keyword and
the trimmed value. -/
def lineDirective (line : String) : Option (String × String) :=
  let trimmed := trimSpace line
  if trimmed = "" ∨ hasPfx trimmed "#" then none
  else
    match parseKeywordValue trimmed with
    | none => none
    | some (kw, v) => some (toLowerStr kw, v)

/-- The parser's mutable loop state in `parseFile`. -/
structure ParseState where
  hosts : List Host
  current : Option Host
  prevLine : String
  lineNum : Nat
deriving Repr

/-- Block finalisation in `parseFile`: default the port to `"22"` and append,
unless the open block is the wildcard `Host *` block (discarded) or no block
is open. -/
def finalizeHost (hosts : List Host) (current : Option Host) : List Host :=
  match current with
  | none => hosts
  | some c =>
      if c.aliasName = "*" then hosts
      else hosts ++ [{ c with port := if c.port = "" then "22" else c.port }]

/-- One iteration of the scanner loop of `parseFile`.  The recursive
expansion of `Include` directives (tilde expansion, glob, visited-set and
recursion into matched files) is abstracted by the oracle `inc`, which maps
the Include value to the host list spliced in at that point; the oracle also
covers the warning-and-skip failure paths (empty list). -/
def parseStep (inc : String → List Host) (path : String)
    (st : ParseState) (line : String) : ParseState :=
  let n := st.lineNum + 1
  match lineDirective line with
  | none => { st with prevLine := line, lineNum := n }
  | some (kw, value) =>
    if kw = "host" then
      { hosts := finalizeHost st.hosts st.current
        current := some
          { aliasName := value, hostname := "", user := "", port := ""
            identityFile := "", groups := parseMagicComment st.prevLine
            sourceFile := path, lineStart := n }
        prevLine := line, lineNum := n }
    else if kw = "hostname" then
      { st with current := st.current.map (fun c => { c with hostname := value })
                prevLine := line, lineNum := n }
    else if kw = "user" then
      { st with current := st.current.map (fun c => { c with user := value })
                prevLine := line, lineNum := n }
    else if kw = "port" then
      { st with current := st.current.map (fun c => { c with port := value })
                prevLine := line, lineNum := n }
    else if kw = "identityfile" then
      { st with current := st.current.map
                  (fun c => { c with identityFile := trimCharBoth '"' value })
                prevLine := line, lineNum := n }
    else if kw = "include" then
      match st.current with
      | some c =>
          if c.aliasName = "*" then
            { st with hosts := st.hosts ++ inc value, prevLine := line, lineNum := n }
          else
            { hosts := finalizeHost st.hosts (some c) ++ inc value
              current := none, prevLine := line, lineNum := n }
      | none =>
          { st with hosts := st.hosts ++ inc value, prevLine := line, lineNum := n }
    else
      { st with prevLine := line, lineNum := n }

/-- `parseFile` from `parser.go` on the line list of a single file, with the
Include recursion abstracted by the oracle `inc`. -/
def parseFile (inc : String → List Host) (path : String)
    (lines : List String) : List Host :=
  let st := lines.foldl (parseStep inc path) ⟨[], none, "", 0⟩
  finalizeHost st.hosts st.current

/-- The trivial include oracle: Include directives splice in no hosts. -/
def noInc : String → List Host := fun _ => []

/-! ## Writer (`config/writer.go`) -/

/-- `IsKnownHost` from `writer.go`. -/
def IsKnownHost (hosts : List Host) (hostname : String) : Bool :=
  hosts.any (fun h => h.hostname = hostname)

/-- `buildHostBlock` from `writer.go`: serialise a Host to its config block. -/
def buildHostBlock (h : Host) : String :=
  (if h.groups ≠ [] then "# @group " ++ joinStr ", " h.groups ++ "\n" else "")
  ++ "Host " ++ h.aliasName ++ "\n"
  ++ "    Hostname " ++ h.hostname ++ "\n"
  ++ (if h.user ≠ "" then "    User " ++ h.user ++ "\n" else "")
  ++ (if h.port ≠ "" ∧ h.port ≠ "22" then "    Port " ++ h.port ++ "\n" else "")
  ++ (if h.identityFile ≠ "" then
        "    IdentityFile \"" ++ h.identityFile ++ "\"\n"
      else "")

/-- `parseHostLine` from `writer.go`: first keyword and value of a config
line, `("", "")` for blank and comment lines. -/
def parseHostLine (line : String) : String × String :=
  let trimmed := trimSpace line
  if trimmed = "" ∨ hasPfx trimmed "#" then ("", "")
  else
    match parseKeywordValue trimmed with
    | none => (trimmed, "")
    | some p => p

/-- A line whose first keyword case-folds to `host`
(the `strings.EqualFold(word, "host")` test of `writer.go`). -/
def isHostKeywordLine (line : String) : Bool :=
  equalFold (parseHostLine line).1 "host"

/-- The blank-line back-up loop at the end of `findBlockEnd`. -/
def backUpBlanks (lines : List String) (blockStart : Nat) : Nat → Nat
  | 0 => 0
  | e + 1 =>
    if blockStart + 1 < e + 1 ∧ trimSpace (lines.getD e "") = "" then
      backUpBlanks lines blockStart e
    else e + 1

theorem backUpBlanks_unfold (lines : List String) (blockStart e : Nat) :
    backUpBlanks lines blockStart e =
      if blockStart + 1 < e ∧ trimSpace (lines.getD (e - 1) "") = "" then
        backUpBlanks lines blockStart (e - 1)
      else e := by
  cases e with
  | zero =>
    rw [if_neg (by omega : ¬ (blockStart + 1 < 0
      ∧ trimSpace (lines.getD (0 - 1) "") = ""))]
    rfl
  | succ e => rfl

/-- The scan loop of `findBlockEnd` over an explicit fuel argument. -/
def findBlockEndFromFuel (lines : List String) (blockStart : Nat) :
    Nat → Nat → Nat
  | 0, _ => lines.length
  | fuel + 1, i =>
    if i < lines.length then
      if isHostKeywordLine (lines.getD i "") then
        let e :=
          if blockStart + 1 < i ∧ containsStr (lines.getD (i - 1) "") "@group" then
            i - 1
          else i
        backUpBlanks lines blockStart e
      else findBlockEndFromFuel lines blockStart fuel (i + 1)
    else lines.length

/-- The scan loop of `findBlockEnd`, searching from index `i` for the first
line starting the next host block, then backing up over an attached `@group`
comment and trailing blank lines. -/
def findBlockEndFrom (lines : List String) (blockStart : Nat) (i : Nat) : Nat :=
  findBlockEndFromFuel lines blockStart (lines.length - i) i

theorem findBlockEndFrom_unfold (lines : List String) (blockStart i : Nat) :
    findBlockEndFrom lines blockStart i =
      if i < lines.length then
        if isHostKeywordLine (lines.getD i "") then
          let e :=
            if blockStart + 1 < i ∧ containsStr (lines.getD (i - 1) "") "@group" then
              i - 1
            else i
          backUpBlanks lines blockStart e
        else findBlockEndFrom lines blockStart (i + 1)
      else lines.length := by
  unfold findBlockEndFrom
  by_cases hlen : i < lines.length
  · have hf : lines.length - i = (lines.length - (i + 1)) + 1 := by omega
    rw [hf]
    simp only [findBlockEndFromFuel]
  · rw [if_neg hlen]
    have hf : lines.length - i = 0 := by omega
    rw [hf]
    rfl

/-- `findBlockEnd` from `writer.go`. -/
def findBlockEnd (lines : List String) (blockStart : Nat) : Nat :=
  findBlockEndFrom lines blockStart (blockStart + 1)

/-- The stale-line verification step of `ReplaceHostBlock` with its one-line
tolerance: `some` of the possibly advanced block-start index, `none` when the
check fails. -/
def adjustBlockStart (lines : List String) (blockStart : Nat) : Option Nat :=
  if isHostKeywordLine (lines.getD blockStart "") then some blockStart
  else if containsStr (lines.getD blockStart "") "@group"
      ∧ blockStart + 1 < lines.length
      ∧ isHostKeywordLine (lines.getD (blockStart + 1) "") then
    some (blockStart + 1)
  else none

/-- The magic-comment adjustment of `ReplaceHostBlock`: the block's first
line index, one less than the Host line when the line above contains
`@group`. -/
def magicStartOf (lines : List String) (blockStart : Nat) : Nat :=
  if 0 < blockStart ∧ containsStr (lines.getD (blockStart - 1) "") "@group" then
    blockStart - 1
  else blockStart

/-- The failure exits of `ReplaceHostBlock` that are decided by the file
contents (read and write failures are threaded separately in the
file-system model below). -/
inductive ReplaceError where
  | staleZero
  | outOfRange
  | staleNotHost
deriving Repr, DecidableEq

/-- Successful result of `ReplaceHostBlock`: the rewritten file contents,
the new 1-based line of the `Host` directive, and the signed line delta. -/
structure ReplaceResult where
  output : String
  newLineStart : Nat
  lineDelta : Int
deriving Repr, DecidableEq

/-- Whether a string ends in a newline (`strings.HasSuffix(s, "\n")` and the
`raw[len(raw)-1] == '\n'` test of `writer.go`). -/
def endsWithNL (s : String) : Bool :=
  s.data.getLast? = some '\n'

/-- `ReplaceHostBlock` from `writer.go`, with the file contents passed in and
returned instead of read and written (`raw` is what `os.ReadFile` yields;
`output` is what is atomically renamed over the file). -/
def ReplaceHostBlock (h : Host) (raw : String) : Except ReplaceError ReplaceResult :=
  if h.lineStart = 0 then .error .staleZero
  else
    let lines := splitLines raw
    let blockStart := h.lineStart - 1
    if lines.length ≤ blockStart then .error .outOfRange
    else
      match adjustBlockStart lines blockStart with
      | none => .error .staleNotHost
      | some blockStart =>
        let magicStart := magicStartOf lines blockStart
        let blockEnd := findBlockEnd lines blockStart
        let newBlockLines := splitLines (buildHostBlock h)
        let result := lines.take magicStart ++ newBlockLines ++ lines.drop blockEnd
        let output := joinStr "\n" result
        let output :=
          if raw ≠ "" ∧ endsWithNL raw ∧ ¬ endsWithNL output then output ++ "\n"
          else output
        let newLineStart := magicStart + 1 + (if h.groups ≠ [] then 1 else 0)
        let lineDelta : Int :=
          (newBlockLines.length : Int) - ((blockEnd : Int) - (magicStart : Int))
        .ok ⟨output, newLineStart, lineDelta⟩

/-! ## A closed-form characterisation of the parser's output

`hostSpec` reads the `Host` directives straight off the line list: every
valued `Host` line whose value is not `*` contributes one entry carrying the
alias, the 1-based line number, and the groups taken from the magic comment
on the immediately preceding line.  The fold of `parseStep` is proved to
realise exactly this list (projected to alias/lineStart/groups). -/

/-- The alias/lineStart/groups projection of a parsed host. -/
structure SpecEntry where
  aliasName : String
  lineStart : Nat
  groups : List String
deriving Repr, DecidableEq

/-- Project a host to the fields wholly determined at its `Host` line. -/
def projHost (h : Host) : SpecEntry :=
  ⟨h.aliasName, h.lineStart, h.groups⟩

/-- The value of a line's `Host` directive, if it is one. -/
def hostDirValue (line : String) : Option String :=
  match lineDirective line with
  | some (kw, v) => if kw = "host" then some v else none
  | none => none

/-- Entries contributed by a line list starting at 1-based line `n + 1`,
with `prev` the text of line `n`. -/
def hostSpecAux : List String → String → Nat → List SpecEntry
  | [], _, _ => []
  | l :: ls, prev, n =>
    match hostDirValue l with
    | some v =>
        if v = "*" then hostSpecAux ls l (n + 1)
        else ⟨v, n + 1, parseMagicComment prev⟩ :: hostSpecAux ls l (n + 1)
    | none => hostSpecAux ls l (n + 1)

/-- The closed-form host list of a file. -/
def hostSpec (lines : List String) : List SpecEntry :=
  hostSpecAux lines "" 0

/-- What a pending block contributes once finalised. -/
def emitC : Option Host → List SpecEntry
  | none => []
  | some c => if c.aliasName = "*" then [] else [projHost c]

/-- Run the parser fold from an arbitrary state and finalise. -/
def runOut (path : String) (st : ParseState) (ls : List String) : List Host :=
  let st' := ls.foldl (parseStep noInc path) st
  finalizeHost st'.hosts st'.current

theorem projHost_finalizeHost (hs : List Host) (c : Option Host) :
    (finalizeHost hs c).map projHost = hs.map projHost ++ emitC c := by
  cases c with
  | none => simp [finalizeHost, emitC]
  | some h =>
    by_cases hstar : h.aliasName = "*"
    · simp [finalizeHost, emitC, hstar]
    · simp [finalizeHost, emitC, hstar, projHost]

theorem runOut_spec (path : String) :
    ∀ (ls : List String) (hs : List Host) (c : Option Host) (p : String) (n : Nat),
    (runOut path ⟨hs, c, p, n⟩ ls).map projHost
      = hs.map projHost ++ emitC c ++ hostSpecAux ls p n := by
  intro ls
  induction ls with
  | nil =>
    intro hs c p n
    simp [runOut, hostSpecAux, projHost_finalizeHost]
  | cons l ls ih =>
    intro hs c p n
    have hstep : runOut path ⟨hs, c, p, n⟩ (l :: ls)
        = runOut path (parseStep noInc path ⟨hs, c, p, n⟩ l) ls := by
      simp [runOut, List.foldl_cons]
    rw [hstep]
    unfold parseStep
    cases hld : lineDirective l with
    | none =>
      simp only [hld, hostSpecAux, hostDirValue]
      rw [ih]
    | some kv =>
      obtain ⟨kw, v⟩ := kv
      simp only [hld]
      by_cases hkw : kw = "host"
      · subst hkw
        simp only [if_pos rfl]
        rw [ih]
        have hhd : hostDirValue l = some v := by
          simp [hostDirValue, hld]
        by_cases hv : v = "*"
        · simp [hostSpecAux, hhd, hv, projHost_finalizeHost, emitC, projHost]
        · simp [hostSpecAux, hhd, hv, projHost_finalizeHost, emitC, projHost]
      · have hhd : hostDirValue l = none := by
          simp [hostDirValue, hld, hkw]
        have hspec : hostSpecAux (l :: ls) p n = hostSpecAux ls l (n + 1) := by
          simp [hostSpecAux, hhd]
        rw [hspec]
        simp only [if_neg hkw]
        by_cases h1 : kw = "hostname"
        · rw [if_pos h1, ih]
          cases c <;> simp [emitC, projHost]
        · rw [if_neg h1]
          by_cases h2 : kw = "user"
          · rw [if_pos h2, ih]
            cases c <;> simp [emitC, projHost]
          · rw [if_neg h2]
            by_cases h3 : kw = "port"
            · rw [if_pos h3, ih]
              cases c <;> simp [emitC, projHost]
            · rw [if_neg h3]
              by_cases h4 : kw = "identityfile"
              · rw [if_pos h4, ih]
                cases c <;> simp [emitC, projHost]
              · rw [if_neg h4]
                by_cases h5 : kw = "include"
                · rw [if_pos h5]
                  cases c with
                  | none => dsimp only; rw [ih]; simp [emitC, noInc]
                  | some ch =>
                    dsimp only
                    by_cases hstar : ch.aliasName = "*"
                    · rw [if_pos hstar, ih]
                      simp [emitC, noInc, hstar]
                    · rw [if_neg hstar, ih]
                      simp [emitC, noInc, projHost_finalizeHost, hstar]
                · rw [if_neg h5, ih]

/-- The parser realises the closed-form host list. -/
theorem parseFile_hostSpec (path : String) (lines : List String) :
    (parseFile noInc path lines).map projHost = hostSpec lines := by
  have h := runOut_spec path lines [] none "" 0
  simpa [runOut, parseFile, hostSpec, emitC] using h

/-- The state invariant used for `sourceFile` bookkeeping. -/
def stInv (path : String) (st : ParseState) : Prop :=
  (∀ h ∈ st.hosts, h.sourceFile = path) ∧
  (∀ h, st.current = some h → h.sourceFile = path)

theorem sourceFile_finalizeHost (path : String) (hs : List Host) (c : Option Host)
    (hhs : ∀ h ∈ hs, h.sourceFile = path)
    (hc : ∀ h, c = some h → h.sourceFile = path) :
    ∀ h ∈ finalizeHost hs c, h.sourceFile = path := by
  intro h hmem
  cases c with
  | none => exact hhs h hmem
  | some ch =>
    by_cases hstar : ch.aliasName = "*"
    · simp only [finalizeHost, hstar, if_pos rfl] at hmem
      exact hhs h hmem
    · simp only [finalizeHost, if_neg hstar, List.mem_append,
        List.mem_singleton] at hmem
      rcases hmem with hl | hr
      · exact hhs h hl
      · subst hr
        simpa using hc ch rfl

theorem parseStep_stInv (path l : String) (st : ParseState)
    (h : stInv path st) : stInv path (parseStep noInc path st l) := by
  obtain ⟨hhs, hc⟩ := h
  unfold parseStep
  split
  · exact ⟨hhs, hc⟩
  · split
    · -- Host directive
      refine ⟨sourceFile_finalizeHost path st.hosts st.current hhs hc, ?_⟩
      intro x hx
      simp only [Option.some.injEq] at hx
      subst hx
      rfl
    · split
      · -- Hostname
        refine ⟨hhs, ?_⟩
        intro x hx
        cases hcur : st.current with
        | none => rw [hcur] at hx; simp at hx
        | some ch =>
          rw [hcur] at hx
          simp only [Option.map_some', Option.some.injEq] at hx
          subst hx
          simpa using hc ch hcur
      · split
        · -- User
          refine ⟨hhs, ?_⟩
          intro x hx
          cases hcur : st.current with
          | none => rw [hcur] at hx; simp at hx
          | some ch =>
            rw [hcur] at hx
            simp only [Option.map_some', Option.some.injEq] at hx
            subst hx
            simpa using hc ch hcur
        · split
          · -- Port
            refine ⟨hhs, ?_⟩
            intro x hx
            cases hcur : st.current with
            | none => rw [hcur] at hx; simp at hx
            | some ch =>
              rw [hcur] at hx
              simp only [Option.map_some', Option.some.injEq] at hx
              subst hx
              simpa using hc ch hcur
          · split
            · -- IdentityFile
              refine ⟨hhs, ?_⟩
              intro x hx
              cases hcur : st.current with
              | none => rw [hcur] at hx; simp at hx
              | some ch =>
                rw [hcur] at hx
                simp only [Option.map_some', Option.some.injEq] at hx
                subst hx
                simpa using hc ch hcur
            · split
              · -- Include
                cases hcur : st.current with
                | none =>
                  dsimp only
                  refine ⟨?_, ?_⟩
                  · intro x hx
                    simp only [noInc, List.append_nil] at hx
                    exact hhs x hx
                  · intro x hx
                    simp at hx
                | some ch =>
                  dsimp only
                  by_cases hstar : ch.aliasName = "*"
                  · simp only [if_pos hstar]
                    refine ⟨?_, ?_⟩
                    · intro x hx
                      simp only [noInc, List.append_nil] at hx
                      exact hhs x hx
                    · intro x hx
                      simp at hx
                      subst hx
                      exact hc ch hcur
                  · simp only [if_neg hstar]
                    refine ⟨?_, by intro x hx; simp at hx⟩
                    intro x hx
                    simp only [noInc, List.append_nil] at hx
                    exact sourceFile_finalizeHost path st.hosts (some ch) hhs
                      (by intro y hy; injection hy with h2; subst h2; exact hc ch hcur)
                      x hx
              · exact ⟨hhs, hc⟩

/-- Every host produced by the single-file parser carries the parsed file's
path as its `sourceFile`. -/
theorem parseFile_sourceFile (path : String) (lines : List String) :
    ∀ h ∈ parseFile noInc path lines, h.sourceFile = path := by
  have hfold : ∀ (ls : List String) (st : ParseState), stInv path st →
      stInv path (ls.foldl (parseStep noInc path) st) := by
    intro ls
    induction ls with
    | nil => intro st h; simpa using h
    | cons l ls ih =>
      intro st h
      rw [List.foldl_cons]
      exact ih _ (parseStep_stInv path l st h)
  intro h hmem
  have h0 : stInv path ⟨[], none, "", 0⟩ := ⟨by simp, by simp⟩
  have h1 := hfold lines _ h0
  exact sourceFile_finalizeHost path _ _ h1.1 h1.2 h hmem

/-! ### Structural lemmas about `hostSpecAux` -/

theorem hostSpecAux_cons (l : String) (zs : List String) (q : String) (m : Nat) :
    hostSpecAux (l :: zs) q m
      = match hostDirValue l with
        | some v =>
            if v = "*" then hostSpecAux zs l (m + 1)
            else ⟨v, m + 1, parseMagicComment q⟩ :: hostSpecAux zs l (m + 1)
        | none => hostSpecAux zs l (m + 1) := rfl

theorem hostSpecAux_append (xs : List String) :
    ∀ (ys : List String) (p : String) (n : Nat),
    hostSpecAux (xs ++ ys) p n
      = hostSpecAux xs p n ++ hostSpecAux ys (xs.getLastD p) (n + xs.length) := by
  induction xs with
  | nil => intro ys p n; simp [hostSpecAux]
  | cons l ls ih =>
    intro ys p n
    have e1 : (l :: ls) ++ ys = l :: (ls ++ ys) := rfl
    rw [e1, hostSpecAux_cons, hostSpecAux_cons]
    have e3 : (l :: ls).getLastD p = ls.getLastD l := by
      cases ls <;> simp [List.getLastD]
    have e4 : n + (l :: ls).length = (n + 1) + ls.length := by
      simp only [List.length_cons]; omega
    rw [e3, e4]
    cases hhd : hostDirValue l with
    | none => exact ih ys l (n + 1)
    | some v =>
      by_cases hv : v = "*"
      · simp only [if_pos hv]
        exact ih ys l (n + 1)
      · simp only [if_neg hv]
        rw [ih ys l (n + 1), List.cons_append]

theorem hostSpecAux_all_none (ls : List String) (p : String) (n : Nat)
    (h : ∀ l ∈ ls, hostDirValue l = none) : hostSpecAux ls p n = [] := by
  induction ls generalizing p n with
  | nil => rfl
  | cons l ls ih =>
    have h0 : hostDirValue l = none := h l (by simp)
    rw [hostSpecAux_cons, h0]
    exact ih l (n + 1) (fun x hx => h x (by simp [hx]))

/-- Prev-line and base-line invariance of the lineStart list: shifting the
starting line shifts every entry, and the previous-line buffer only
influences groups. -/
theorem hostSpecAux_lineStart_shift (ls : List String) :
    ∀ (p q : String) (n : Nat),
      (hostSpecAux ls p n).map SpecEntry.lineStart
        = ((hostSpecAux ls q 0).map SpecEntry.lineStart).map (fun x => x + n) := by
  induction ls with
  | nil => intro p q n; simp [hostSpecAux]
  | cons l ls ih =>
    intro p q n
    have comp2 : ∀ (zs : List Nat) (a b : Nat),
        (zs.map (fun x => x + a)).map (fun x => x + b)
          = zs.map (fun x => x + (a + b)) := by
      intro zs a b
      rw [List.map_map]
      apply List.map_congr_left
      intro x _
      simp [Function.comp]
      omega
    rw [hostSpecAux_cons, hostSpecAux_cons]
    cases hhd : hostDirValue l with
    | none =>
      simp only [Nat.zero_add]
      rw [ih l l (n + 1), ih l l 1, comp2]
      apply List.map_congr_left
      intro x _
      omega
    | some v =>
      by_cases hv : v = "*"
      · simp only [if_pos hv, Nat.zero_add]
        rw [ih l l (n + 1), ih l l 1, comp2]
        apply List.map_congr_left
        intro x _
        omega
      · simp only [if_neg hv, List.map_cons, Nat.zero_add]
        rw [ih l l (n + 1), ih l l 1, comp2]
        refine congrArg₂ _ ?_ ?_
        · dsimp only
          omega
        · apply List.map_congr_left
          intro x _
          omega

/-- Everything a `hostSpecAux` entry tells us: its line is in range, it is a
valued non-wildcard `Host` directive with the entry's alias, and the groups
come from the line directly above (or the incoming previous-line buffer for
the first line). -/
theorem hostSpecAux_mem (ls : List String) :
    ∀ (p : String) (n : Nat), ∀ e ∈ hostSpecAux ls p n,
      n < e.lineStart ∧ e.lineStart ≤ n + ls.length
      ∧ hostDirValue (ls.getD (e.lineStart - n - 1) "") = some e.aliasName
      ∧ e.aliasName ≠ "*"
      ∧ e.groups = parseMagicComment
          (if e.lineStart = n + 1 then p else ls.getD (e.lineStart - n - 2) "") := by
  induction ls with
  | nil => intro p n e he; simp [hostSpecAux] at he
  | cons l ls ih =>
    intro p n e he
    have hlift : e ∈ hostSpecAux ls l (n + 1) →
        n < e.lineStart ∧ e.lineStart ≤ n + (l :: ls).length
        ∧ hostDirValue ((l :: ls).getD (e.lineStart - n - 1) "") = some e.aliasName
        ∧ e.aliasName ≠ "*"
        ∧ e.groups = parseMagicComment
            (if e.lineStart = n + 1 then p
             else (l :: ls).getD (e.lineStart - n - 2) "") := by
      intro he'
      obtain ⟨h1, h2, h3, h4, h5⟩ := ih l (n + 1) e he'
      refine ⟨by omega, by simp only [List.length_cons]; omega, ?_, h4, ?_⟩
      · have harith : e.lineStart - n - 1 = (e.lineStart - (n + 1) - 1) + 1 := by
          omega
        rw [harith, List.getD_cons_succ]
        exact h3
      · have hne : ¬ e.lineStart = n + 1 := by omega
        rw [if_neg hne]
        by_cases hfirst : e.lineStart = n + 2
        · have h0 : e.lineStart - n - 2 = 0 := by omega
          have h0' : e.lineStart = (n + 1) + 1 := by omega
          rw [if_pos h0'] at h5
          rw [h0, List.getD_cons_zero]
          exact h5
        · have hne2 : ¬ e.lineStart = (n + 1) + 1 := by omega
          rw [if_neg hne2] at h5
          have harith : e.lineStart - n - 2 = (e.lineStart - (n + 1) - 2) + 1 := by
            omega
          rw [harith, List.getD_cons_succ]
          exact h5
    rw [hostSpecAux_cons] at he
    cases hhd : hostDirValue l with
    | none => rw [hhd] at he; exact hlift he
    | some v =>
      rw [hhd] at he
      dsimp only at he
      by_cases hv : v = "*"
      · rw [if_pos hv] at he
        exact hlift he
      · rw [if_neg hv] at he
        rcases List.mem_cons.mp he with he | he
        · subst he
          refine ⟨?_, ?_, ?_, hv, ?_⟩
          · dsimp only
            omega
          · dsimp only
            simp only [List.length_cons]
            omega
          · simpa using hhd
          · simp
        · exact hlift he

/-! ### Split/join round-trip lemmas for the writer's output -/

/-- Character-level join with newline separators (the `.data` image of
`joinStr "\n"`). -/
def joinNL : List (List Char) → List Char
  | [] => []
  | [x] => x
  | x :: rest => x ++ '\n' :: joinNL rest

theorem joinStr_nl_data (L : List String) :
    (joinStr "\n" L).data = joinNL (L.map String.data) := by
  induction L with
  | nil => rfl
  | cons x L ih =>
    cases L with
    | nil => rfl
    | cons y L' =>
      show (x ++ "\n" ++ joinStr "\n" (y :: L')).data = _
      rw [String.data_append, String.data_append, ih]
      have hnl : ("\n" : String).data = ['\n'] := rfl
      rw [hnl]
      simp [joinNL]

theorem splitLinesData_cons_nl (xs ys : List Char)
    (h : ∀ c ∈ xs, c ≠ '\n') :
    splitLinesData (xs ++ '\n' :: ys) = dropCR xs :: splitLinesData ys := by
  have hne : xs ++ '\n' :: ys ≠ [] := by simp
  have htake : (xs ++ '\n' :: ys).takeWhile (· ≠ '\n') = xs := by
    rw [List.takeWhile_append]
    have hx : xs.takeWhile (fun c => decide (c ≠ '\n')) = xs :=
      List.takeWhile_eq_self_iff.mpr (by intro c hc; simpa using h c hc)
    rw [hx]
    simp [List.takeWhile]
  have hdrop : (xs ++ '\n' :: ys).dropWhile (· ≠ '\n') = '\n' :: ys := by
    rw [List.dropWhile_append]
    have hx : xs.dropWhile (fun c => decide (c ≠ '\n')) = [] :=
      List.dropWhile_eq_nil_iff.mpr (by intro c hc; simpa using h c hc)
    rw [hx]
    simp [List.dropWhile]
  rw [splitLinesData_unfold]
  rw [dif_neg hne]
  simp only [htake, hdrop]
  rw [dif_neg (by simp : ('\n' :: ys : List Char) ≠ [])]
  simp

theorem splitLinesData_single (xs : List Char) (hne : xs ≠ [])
    (h : ∀ c ∈ xs, c ≠ '\n') :
    splitLinesData xs = [dropCR xs] := by
  have htake : xs.takeWhile (· ≠ '\n') = xs :=
    List.takeWhile_eq_self_iff.mpr (by intro c hc; simpa using h c hc)
  have hdrop : xs.dropWhile (· ≠ '\n') = [] :=
    List.dropWhile_eq_nil_iff.mpr (by intro c hc; simpa using h c hc)
  rw [splitLinesData_unfold, dif_neg hne]
  simp only [htake, hdrop]
  simp

/-- Splitting a newline-join: the only wrinkle is that a trailing empty
segment is not re-materialised (it produced the final `\n` with no line
after it). -/
theorem splitLinesData_joinNL (L : List (List Char))
    (h : ∀ l ∈ L, ∀ c ∈ l, c ≠ '\n') :
    splitLinesData (joinNL L)
      = if L.getLast? = some [] then (L.dropLast).map dropCR
        else L.map dropCR := by
  induction L with
  | nil => simp [joinNL, splitLinesData]
  | cons x L ih =>
    cases L with
    | nil =>
      by_cases hx : x = []
      · subst hx
        simp [joinNL, splitLinesData]
      · have h1 : splitLinesData (joinNL [x]) = [dropCR x] :=
          splitLinesData_single x hx (h x (by simp))
        rw [h1]
        simp [hx]
    | cons y L' =>
      have hstep : joinNL (x :: y :: L') = x ++ '\n' :: joinNL (y :: L') := rfl
      rw [hstep, splitLinesData_cons_nl x _ (h x (by simp))]
      rw [ih (by intro l hl; exact h l (by simp [hl]))]
      have hlast : (x :: y :: L').getLast? = (y :: L').getLast? := by
        simp [List.getLast?_cons_cons]
      rw [hlast]
      by_cases hcase : (y :: L').getLast? = some ([] : List Char)
      · rw [if_pos hcase, if_pos hcase]
        rfl
      · rw [if_neg hcase, if_neg hcase]
        rfl

/-- Splitting a newline-join followed by a final newline reproduces every
segment. -/
theorem splitLinesData_joinNL_nl (L : List (List Char)) (hL : L ≠ [])
    (h : ∀ l ∈ L, ∀ c ∈ l, c ≠ '\n') :
    splitLinesData (joinNL L ++ ['\n']) = L.map dropCR := by
  induction L with
  | nil => exact absurd rfl hL
  | cons x L ih =>
    cases L with
    | nil =>
      show splitLinesData (x ++ '\n' :: []) = _
      rw [splitLinesData_cons_nl x [] (h x (by simp))]
      simp [splitLinesData]
    | cons y L' =>
      have hstep : joinNL (x :: y :: L') ++ ['\n']
          = x ++ '\n' :: (joinNL (y :: L') ++ ['\n']) := by
        simp [joinNL]
      rw [hstep, splitLinesData_cons_nl x _ (h x (by simp))]
      rw [ih (by simp) (by intro l hl; exact h l (by simp [hl]))]
      rfl

/-! ### Invariance of the line classifiers under CR-stripping -/

theorem trimChars_append_cr (xs : List Char) :
    trimChars (xs ++ ['\r']) = trimChars xs := by
  unfold trimChars
  rw [List.dropWhile_append]
  by_cases hx : (xs.dropWhile Char.isWhitespace).isEmpty
  · rw [if_pos hx]
    have h1 : xs.dropWhile Char.isWhitespace = [] := by
      simpa [List.isEmpty_iff] using hx
    rw [h1]
    simp [List.dropWhile]
  · rw [if_neg hx]
    rw [List.reverse_append]
    have h2 : (['\r'] : List Char).reverse = ['\r'] := rfl
    rw [h2]
    show (('\r' :: (xs.dropWhile Char.isWhitespace).reverse).dropWhile
        Char.isWhitespace).reverse = _
    rw [List.dropWhile_cons_of_pos (by decide)]

theorem dropCR_trimChars (cs : List Char) :
    trimChars (dropCR cs) = trimChars cs := by
  unfold dropCR
  by_cases h : cs.getLast? = some '\r'
  · rw [if_pos h]
    conv_rhs => rw [← List.dropLast_append_getLast? '\r' h]
    rw [trimChars_append_cr]
  · rw [if_neg h]

/-- CR-stripping on strings, as the re-split of written output performs. -/
def dropCRStr (s : String) : String :=
  ⟨dropCR s.data⟩

theorem trimSpace_dropCRStr (s : String) :
    trimSpace (dropCRStr s) = trimSpace s := by
  simp [trimSpace, dropCRStr, dropCR_trimChars]

theorem lineDirective_congr (s t : String) (h : trimSpace s = trimSpace t) :
    lineDirective s = lineDirective t := by
  unfold lineDirective
  rw [h]

theorem hostDirValue_congr (s t : String) (h : trimSpace s = trimSpace t) :
    hostDirValue s = hostDirValue t := by
  unfold hostDirValue
  rw [lineDirective_congr s t h]

theorem hostDirValue_dropCRStr (s : String) :
    hostDirValue (dropCRStr s) = hostDirValue s :=
  hostDirValue_congr _ _ (trimSpace_dropCRStr s)

/-- The lineStart sequence only depends on the lines modulo CR-stripping and
on the starting line number, not on the previous-line buffer. -/
theorem hostSpecAux_lineStart_dropCR (L : List String) :
    ∀ (p q : String) (n : Nat),
      (hostSpecAux (L.map dropCRStr) p n).map SpecEntry.lineStart
        = (hostSpecAux L q n).map SpecEntry.lineStart := by
  induction L with
  | nil => intro p q n; simp [hostSpecAux]
  | cons l L ih =>
    intro p q n
    rw [List.map_cons, hostSpecAux_cons, hostSpecAux_cons,
      hostDirValue_dropCRStr l]
    cases hhd : hostDirValue l with
    | none => exact ih _ _ (n + 1)
    | some v =>
      by_cases hv : v = "*"
      · simp only [if_pos hv]
        exact ih _ _ (n + 1)
      · simp only [if_neg hv, List.map_cons]
        rw [ih _ _ (n + 1)]

theorem hostDirValue_empty : hostDirValue "" = none := by
  decide

theorem hostSpecAux_dropLast_blank (L : List String) (x : String)
    (hlast : L.getLast? = some x) (hx : hostDirValue x = none)
    (p : String) (n : Nat) :
    hostSpecAux L.dropLast p n = hostSpecAux L p n := by
  have hsplit : L.dropLast ++ [x] = L := List.dropLast_append_getLast? x hlast
  conv_rhs => rw [← hsplit]
  rw [hostSpecAux_append]
  rw [hostSpecAux_all_none [x] _ _ (by simpa using hx)]
  simp

/-- Re-splitting the writer's joined output yields the same lineStart
sequence as the segment list it was composed from. -/
theorem splitLines_join_lineStarts (L : List String) (hL : L ≠ [])
    (hnl : ∀ s ∈ L, ∀ c ∈ s.data, c ≠ '\n') (out : String)
    (hout : out = joinStr "\n" L ∨ out = joinStr "\n" L ++ "\n")
    (p q : String) (n : Nat) :
    (hostSpecAux (splitLines out) p n).map SpecEntry.lineStart
      = (hostSpecAux L q n).map SpecEntry.lineStart := by
  have hnl' : ∀ l ∈ L.map String.data, ∀ c ∈ l, c ≠ '\n' := by
    intro l hl c hc
    obtain ⟨s, hs, rfl⟩ := List.mem_map.mp hl
    exact hnl s hs c hc
  have hmapmk : ∀ (M : List (List Char)),
      (M.map dropCR).map (fun cs => (⟨cs⟩ : String))
        = (M.map (fun cs => (⟨cs⟩ : String))).map dropCRStr := by
    intro M
    rw [List.map_map, List.map_map]
    rfl
  have hLmk : ∀ (M : List String),
      (M.map String.data).map (fun cs => (⟨cs⟩ : String)) = M := by
    intro M
    rw [List.map_map]
    have : (fun cs => (⟨cs⟩ : String)) ∘ String.data = id := by
      funext s
      rfl
    rw [this, List.map_id]
  rcases hout with hout | hout
  · subst hout
    unfold splitLines
    rw [joinStr_nl_data, splitLinesData_joinNL (L.map String.data) hnl']
    by_cases hc : (L.map String.data).getLast? = some []
    · rw [if_pos hc]
      rw [← List.map_dropLast, hmapmk, hLmk L.dropLast]
      rw [hostSpecAux_lineStart_dropCR]
      rw [hostSpecAux_dropLast_blank L "" ?hlast hostDirValue_empty q n]
      case hlast =>
        rw [List.getLast?_map] at hc
        cases hget : L.getLast? with
        | none => rw [hget] at hc; simp at hc
        | some x =>
          rw [hget] at hc
          simp only [Option.map_some', Option.some.injEq] at hc
          obtain ⟨d⟩ := x
          change d = [] at hc
          subst hc
          rfl
    · rw [if_neg hc]
      rw [hmapmk, hLmk L]
      exact hostSpecAux_lineStart_dropCR L p q n
  · subst hout
    unfold splitLines
    rw [String.data_append, joinStr_nl_data]
    have hnlone : ("\n" : String).data = ['\n'] := rfl
    rw [hnlone]
    rw [splitLinesData_joinNL_nl (L.map String.data) (by simpa using hL) hnl']
    rw [hmapmk, hLmk L]
    exact hostSpecAux_lineStart_dropCR L p q n

/-! ### Arithmetic of `trimChars` on composite lines -/

/-- Right trim (drop trailing whitespace). -/
def trimRChars (cs : List Char) : List Char :=
  (cs.reverse.dropWhile Char.isWhitespace).reverse

theorem trimChars_eq (cs : List Char) :
    trimChars cs = trimRChars (cs.dropWhile Char.isWhitespace) := rfl

theorem dropWhile_ws_append (sp z : List Char)
    (hsp : ∀ c ∈ sp, Char.isWhitespace c) :
    (sp ++ z).dropWhile Char.isWhitespace = z.dropWhile Char.isWhitespace := by
  rw [List.dropWhile_append]
  have h1 : sp.dropWhile Char.isWhitespace = [] :=
    List.dropWhile_eq_nil_iff.mpr hsp
  rw [h1]
  simp

theorem dropWhile_cons_neg (p : Char → Bool) (c : Char) (z : List Char)
    (hc : ¬ p c) : (c :: z).dropWhile p = c :: z := by
  simp [List.dropWhile, hc]

theorem trimR_nil_iff (z : List Char) :
    trimRChars z = [] ↔ ∀ c ∈ z, Char.isWhitespace c := by
  unfold trimRChars
  rw [List.reverse_eq_nil_iff, List.dropWhile_eq_nil_iff]
  constructor
  · intro h c hc
    exact h c (List.mem_reverse.mpr hc)
  · intro h c hc
    exact h c (List.mem_reverse.mp hc)

theorem trimR_append (a b : List Char) :
    trimRChars (a ++ b)
      = if trimRChars b = [] then trimRChars a else a ++ trimRChars b := by
  unfold trimRChars
  rw [List.reverse_append, List.dropWhile_append]
  by_cases hb : (b.reverse.dropWhile Char.isWhitespace).isEmpty
  · have hb' : b.reverse.dropWhile Char.isWhitespace = [] := by
      simpa [List.isEmpty_iff] using hb
    rw [if_pos hb, if_pos (by simp [hb'])]
  · have hb' : ¬ (b.reverse.dropWhile Char.isWhitespace).reverse = [] := by
      simp only [List.reverse_eq_nil_iff]
      simpa [List.isEmpty_iff] using hb
    rw [if_neg hb, if_neg hb']
    rw [List.reverse_append, List.reverse_reverse]

theorem trimR_singleton (c : Char) :
    trimRChars [c] = if Char.isWhitespace c then [] else [c] := by
  unfold trimRChars
  by_cases h : Char.isWhitespace c
  · simp [List.dropWhile, h]
  · simp [List.dropWhile, h]

theorem trimR_cons (c : Char) (z : List Char) :
    trimRChars (c :: z)
      = if trimRChars z = [] then (if Char.isWhitespace c then [] else [c])
        else c :: trimRChars z := by
  have h : c :: z = [c] ++ z := rfl
  rw [h, trimR_append]
  by_cases hz : trimRChars z = []
  · rw [if_pos hz, if_pos hz, trimR_singleton]
  · rw [if_neg hz, if_neg hz]
    rfl

theorem dropWhile_drops (p : Char → Bool) (z : List Char) (c : Char)
    (rest : List Char) (h : z.dropWhile p = c :: rest) : ¬ p c := by
  induction z with
  | nil => simp [List.dropWhile] at h
  | cons a t ih =>
    by_cases ha : p a
    · rw [List.dropWhile_cons, if_pos ha] at h
      exact ih h
    · rw [List.dropWhile_cons, if_neg ha] at h
      injection h with h1 h2
      subst h1
      exact ha

theorem dropWhile_idem (p : Char → Bool) (z : List Char) :
    (z.dropWhile p).dropWhile p = z.dropWhile p := by
  cases hz : z.dropWhile p with
  | nil => simp [List.dropWhile]
  | cons c rest =>
    have hc : ¬ p c := dropWhile_drops p z c rest hz
    exact dropWhile_cons_neg p c rest hc

theorem trimR_idem (z : List Char) :
    trimRChars (trimRChars z) = trimRChars z := by
  unfold trimRChars
  rw [List.reverse_reverse, dropWhile_idem]

theorem trimR_subset (z : List Char) : ∀ c ∈ trimRChars z, c ∈ z := by
  intro c hc
  unfold trimRChars at hc
  rw [List.mem_reverse] at hc
  have := List.dropWhile_sublist (p := Char.isWhitespace) (l := z.reverse)
  exact List.mem_reverse.mp (this.mem hc)

theorem trimChars_nil_iff (z : List Char) :
    trimChars z = [] ↔ ∀ c ∈ z, Char.isWhitespace c := by
  rw [trimChars_eq, trimR_nil_iff]
  constructor
  · intro h c hc
    have hsplit : z.takeWhile Char.isWhitespace ++ z.dropWhile Char.isWhitespace
        = z := List.takeWhile_append_dropWhile Char.isWhitespace z
    rw [← hsplit] at hc
    rcases List.mem_append.mp hc with h1 | h1
    · exact List.mem_takeWhile_imp h1
    · exact h c h1
  · intro h c hc
    have := List.dropWhile_sublist (p := Char.isWhitespace) (l := z)
    exact h c (this.mem hc)

theorem trimChars_trimR (xs : List Char) :
    trimChars (trimRChars xs) = trimChars xs := by
  by_cases hws : ∀ c ∈ xs, Char.isWhitespace c
  · rw [(trimChars_nil_iff _).mpr, (trimChars_nil_iff _).mpr hws]
    intro c hc
    exact hws c (trimR_subset xs c hc)
  · have h1 : ¬ xs.dropWhile Char.isWhitespace = [] := by
      rw [List.dropWhile_eq_nil_iff]
      exact hws
    obtain ⟨c, rest, hL⟩ :
        ∃ c rest, xs.dropWhile Char.isWhitespace = c :: rest := by
      cases h : xs.dropWhile Char.isWhitespace with
      | nil => exact absurd h h1
      | cons c rest => exact ⟨c, rest, rfl⟩
    have hc : ¬ Char.isWhitespace c := dropWhile_drops _ xs c rest hL
    have hsplit : xs.takeWhile Char.isWhitespace ++ (c :: rest) = xs := by
      rw [← hL]
      exact List.takeWhile_append_dropWhile Char.isWhitespace xs
    have hcr_ne : ¬ trimRChars (c :: rest) = [] := by
      rw [trimR_nil_iff]
      push_neg
      exact ⟨c, by simp, hc⟩
    have htrimR : trimRChars xs = xs.takeWhile Char.isWhitespace
        ++ trimRChars (c :: rest) := by
      conv_lhs => rw [← hsplit]
      rw [trimR_append, if_neg hcr_ne]
    have hhead : ∃ rest', trimRChars (c :: rest) = c :: rest' := by
      rw [trimR_cons]
      by_cases hz : trimRChars rest = []
      · rw [if_pos hz, if_neg hc]
        exact ⟨[], rfl⟩
      · rw [if_neg hz]
        exact ⟨trimRChars rest, rfl⟩
    obtain ⟨rest', hrest'⟩ := hhead
    rw [htrimR, trimChars_eq,
      dropWhile_ws_append _ _ (fun c hcm => List.mem_takeWhile_imp hcm),
      hrest', dropWhile_cons_neg _ _ _ hc, ← hrest', trimR_idem,
      trimChars_eq, hL]

/-! ### Classifying the writer's serialised lines -/

theorem string_mk_ne_empty (c : Char) (z : List Char) :
    (⟨c :: z⟩ : String) ≠ "" := by
  intro h
  have : (c :: z) = ([] : List Char) := congrArg String.data h
  simp at this

theorem lineDirective_keyword (sp kwt : List Char) (k : Char) (xs : List Char)
    (hsp : ∀ c ∈ sp, Char.isWhitespace c)
    (hk : ¬ Char.isWhitespace k) (hkh : k ≠ '#')
    (hnost : ∀ c ∈ k :: kwt, ¬ (c = ' ' ∨ c = '\t'))
    (htr : trimRChars (k :: kwt) = k :: kwt) :
    lineDirective ⟨sp ++ (k :: kwt) ++ ' ' :: xs⟩
      = if trimChars xs = [] then none
        else some (toLowerStr ⟨k :: kwt⟩, ⟨trimChars xs⟩) := by
  have htrimmed0 : trimSpace ⟨sp ++ (k :: kwt) ++ ' ' :: xs⟩
      = ⟨trimRChars ((k :: kwt) ++ ' ' :: xs)⟩ := by
    unfold trimSpace
    rw [trimChars_eq]
    rw [List.append_assoc]
    rw [dropWhile_ws_append sp _ hsp]
    rw [List.cons_append, dropWhile_cons_neg _ _ _ hk, ← List.cons_append]
  by_cases h0 : trimChars xs = []
  · have hxsws : ∀ c ∈ xs, Char.isWhitespace c := (trimChars_nil_iff xs).mp h0
    have h1 : trimRChars (' ' :: xs) = [] := by
      rw [trimR_nil_iff]
      intro c hc
      rcases List.mem_cons.mp hc with rfl | hc
      · decide
      · exact hxsws c hc
    have htrimmed : trimSpace ⟨sp ++ (k :: kwt) ++ ' ' :: xs⟩ = ⟨k :: kwt⟩ := by
      rw [htrimmed0, trimR_append, if_pos h1, htr]
    rw [if_pos h0]
    unfold lineDirective
    rw [htrimmed]
    have hblank : ¬ ((⟨k :: kwt⟩ : String) = "" ∨ hasPfx ⟨k :: kwt⟩ "#") := by
      push_neg
      refine ⟨string_mk_ne_empty k kwt, ?_⟩
      show ¬ ("#".data.isPrefixOf (k :: kwt) = true)
      have hd : ("#" : String).data = ['#'] := rfl
      rw [hd]
      intro hpre
      simp [List.isPrefixOf] at hpre
      exact hkh hpre.symm
    rw [if_neg hblank]
    have hkv : parseKeywordValue ⟨k :: kwt⟩ = none := by
      unfold parseKeywordValue
      have hdw : (k :: kwt).dropWhile (fun c => ¬ (c = ' ' ∨ c = '\t')) = [] := by
        rw [List.dropWhile_eq_nil_iff]
        intro c hc
        simpa using hnost c hc
      simp only [hdw]
      simp
    rw [hkv]
  · have hxs : trimRChars xs ≠ [] := by
      intro hcon
      exact h0 ((trimChars_nil_iff xs).mpr
        (fun c hc => (trimR_nil_iff xs).mp hcon c hc))
    have h1 : trimRChars (' ' :: xs) = ' ' :: trimRChars xs := by
      rw [trimR_cons, if_neg hxs]
    have h1ne : trimRChars (' ' :: xs) ≠ [] := by
      rw [h1]
      simp
    have htrimmed : trimSpace ⟨sp ++ (k :: kwt) ++ ' ' :: xs⟩
        = ⟨(k :: kwt) ++ ' ' :: trimRChars xs⟩ := by
      rw [htrimmed0, trimR_append, if_neg h1ne, h1]
    rw [if_neg h0]
    unfold lineDirective
    rw [htrimmed]
    have hblank : ¬ ((⟨(k :: kwt) ++ ' ' :: trimRChars xs⟩ : String) = ""
        ∨ hasPfx ⟨(k :: kwt) ++ ' ' :: trimRChars xs⟩ "#") := by
      push_neg
      refine ⟨string_mk_ne_empty k _, ?_⟩
      show ¬ ("#".data.isPrefixOf (k :: (kwt ++ ' ' :: trimRChars xs)) = true)
      have hd : ("#" : String).data = ['#'] := rfl
      rw [hd]
      intro hpre
      simp [List.isPrefixOf] at hpre
      exact hkh hpre.symm
    rw [if_neg hblank]
    have hkv : parseKeywordValue ⟨(k :: kwt) ++ ' ' :: trimRChars xs⟩
        = some (⟨k :: kwt⟩, trimSpace ⟨trimRChars xs⟩) := by
      unfold parseKeywordValue
      have htw : ((k :: kwt) ++ ' ' :: trimRChars xs).takeWhile
          (fun c => ¬ (c = ' ' ∨ c = '\t')) = k :: kwt := by
        rw [List.takeWhile_append]
        have hself : (k :: kwt).takeWhile (fun c => ¬ (c = ' ' ∨ c = '\t'))
            = k :: kwt := by
          rw [List.takeWhile_eq_self_iff]
          intro c hc
          simpa using hnost c hc
        rw [hself]
        simp [List.takeWhile]
      have hdw : ((k :: kwt) ++ ' ' :: trimRChars xs).dropWhile
          (fun c => ¬ (c = ' ' ∨ c = '\t')) = ' ' :: trimRChars xs := by
        rw [List.dropWhile_append]
        have hself : (k :: kwt).dropWhile (fun c => ¬ (c = ' ' ∨ c = '\t'))
            = [] := by
          rw [List.dropWhile_eq_nil_iff]
          intro c hc
          simpa using hnost c hc
        rw [hself]
        simp [List.dropWhile]
      simp only [htw, hdw]
      simp
    rw [hkv]
    have hval : trimSpace ⟨trimRChars xs⟩ = ⟨trimChars xs⟩ := by
      unfold trimSpace
      rw [show (⟨trimRChars xs⟩ : String).data = trimRChars xs from rfl]
      rw [trimChars_trimR]

    rw [hval]

theorem hostDirValue_hash (z : List Char) : hostDirValue ⟨'#' :: z⟩ = none := by
  unfold hostDirValue lineDirective
  have htrim : trimSpace ⟨'#' :: z⟩ = ⟨trimRChars ('#' :: z)⟩ := by
    unfold trimSpace
    rw [trimChars_eq, dropWhile_cons_neg _ _ _ (by decide)]
  rw [htrim]
  have hpfx : hasPfx ⟨trimRChars ('#' :: z)⟩ "#" = true := by
    rw [trimR_cons]
    by_cases hz : trimRChars z = []
    · rw [if_pos hz]
      decide
    · rw [if_neg hz]
      show ("#".data.isPrefixOf ('#' :: trimRChars z)) = true
      simp [List.isPrefixOf]
  rw [if_pos (Or.inr hpfx)]

theorem hostDirValue_hostLine (a : String) :
    hostDirValue ("Host " ++ a)
      = if trimSpace a = "" then none else some (trimSpace a) := by
  have hdata : ("Host " ++ a)
      = (⟨([] : List Char) ++ ('H' :: ['o', 's', 't']) ++ ' ' :: a.data⟩ : String) := by
    apply String.ext
    rw [String.data_append]
    rfl
  rw [hdata]
  unfold hostDirValue
  rw [lineDirective_keyword [] ['o', 's', 't'] 'H' a.data (by simp) (by decide)
    (by decide) (by decide) (by decide)]
  have hiff : (trimSpace a = "") ↔ trimChars a.data = [] := by
    unfold trimSpace
    rw [String.ext_iff]
  by_cases h : trimChars a.data = []
  · rw [if_pos h, if_pos (hiff.mpr h)]
  · rw [if_neg h, if_neg (fun hcon => h (hiff.mp hcon))]
    have hlow : toLowerStr ⟨'H' :: ['o', 's', 't']⟩ = "host" := by decide
    rw [hlow]
    simp only [if_pos rfl]
    rfl

theorem hostDirValue_indentKeyword (k : Char) (kwt : List Char) (xs : List Char)
    (hk : ¬ Char.isWhitespace k) (hkh : k ≠ '#')
    (hnost : ∀ c ∈ k :: kwt, ¬ (c = ' ' ∨ c = '\t'))
    (htr : trimRChars (k :: kwt) = k :: kwt)
    (hne : toLowerStr ⟨k :: kwt⟩ ≠ "host") :
    hostDirValue ⟨"    ".data ++ (k :: kwt) ++ ' ' :: xs⟩ = none := by
  unfold hostDirValue
  rw [lineDirective_keyword "    ".data kwt k xs (by decide) hk hkh hnost htr]
  by_cases h : trimChars xs = []
  · rw [if_pos h]
  · rw [if_neg h]
    simp [hne]

theorem hostDirValue_hostnameLine (x : String) :
    hostDirValue ("    Hostname " ++ x) = none := by
  have hdata : ("    Hostname " ++ x)
      = (⟨"    ".data ++ ('H' :: ['o', 's', 't', 'n', 'a', 'm', 'e'])
          ++ ' ' :: x.data⟩ : String) := by
    apply String.ext
    rw [String.data_append]
    rfl
  rw [hdata]
  exact hostDirValue_indentKeyword 'H' ['o', 's', 't', 'n', 'a', 'm', 'e'] x.data
    (by decide) (by decide) (by decide) (by decide) (by decide)

theorem hostDirValue_userLine (x : String) :
    hostDirValue ("    User " ++ x) = none := by
  have hdata : ("    User " ++ x)
      = (⟨"    ".data ++ ('U' :: ['s', 'e', 'r']) ++ ' ' :: x.data⟩ : String) := by
    apply String.ext
    rw [String.data_append]
    rfl
  rw [hdata]
  exact hostDirValue_indentKeyword 'U' ['s', 'e', 'r'] x.data
    (by decide) (by decide) (by decide) (by decide) (by decide)

theorem hostDirValue_portLine (x : String) :
    hostDirValue ("    Port " ++ x) = none := by
  have hdata : ("    Port " ++ x)
      = (⟨"    ".data ++ ('P' :: ['o', 'r', 't']) ++ ' ' :: x.data⟩ : String) := by
    apply String.ext
    rw [String.data_append]
    rfl
  rw [hdata]
  exact hostDirValue_indentKeyword 'P' ['o', 'r', 't'] x.data
    (by decide) (by decide) (by decide) (by decide) (by decide)

theorem hostDirValue_identityLine (x : String) :
    hostDirValue ("    IdentityFile \"" ++ x ++ "\"") = none := by
  have hdata : ("    IdentityFile \"" ++ x ++ "\"")
      = (⟨"    ".data ++ ('I' :: "dentityFile".data)
          ++ ' ' :: ('"' :: (x.data ++ ['"']))⟩ : String) := by
    apply String.ext
    rw [String.data_append, String.data_append]
    show (("    IdentityFile \"".data ++ x.data) ++ ['"']) = _
    rw [List.append_assoc]
    rfl
  rw [hdata]
  exact hostDirValue_indentKeyword 'I' "dentityFile".data ('"' :: (x.data ++ ['"']))
    (by decide) (by decide) (by decide) (by decide) (by decide)

theorem hostDirValue_magicLine (j : String) :
    hostDirValue ("# @group " ++ j) = none := by
  have hdata : ("# @group " ++ j)
      = (⟨'#' :: (" @group ".data ++ j.data)⟩ : String) := by
    apply String.ext
    rw [String.data_append]
    rfl
  rw [hdata]
  exact hostDirValue_hash _

/-! ### The serialised block as a line list -/

/-- The line list of `buildHostBlock h` (each line without its `\n`). -/
def blockLines (h : Host) : List String :=
  (if h.groups ≠ [] then ["# @group " ++ joinStr ", " h.groups] else [])
  ++ ["Host " ++ h.aliasName, "    Hostname " ++ h.hostname]
  ++ (if h.user ≠ "" then ["    User " ++ h.user] else [])
  ++ (if h.port ≠ "" ∧ h.port ≠ "22" then ["    Port " ++ h.port] else [])
  ++ (if h.identityFile ≠ "" then
        ["    IdentityFile \"" ++ h.identityFile ++ "\""]
      else [])

theorem buildHostBlock_data (h : Host) :
    (buildHostBlock h).data = joinNL ((blockLines h).map String.data) ++ ['\n'] := by
  have hnl : ("\n" : String).data = ['\n'] := rfl
  have hemp : ("" : String).data = [] := rfl
  unfold buildHostBlock blockLines
  by_cases hg : h.groups ≠ [] <;> by_cases hu : h.user ≠ "" <;>
    by_cases hp : h.port ≠ "" ∧ h.port ≠ "22" <;>
      by_cases hi : h.identityFile ≠ "" <;>
        simp [hg, hu, hp, hi, String.data_append, joinNL, hnl, hemp,
          List.append_assoc]

/-- No newline among the characters of a string. -/
def noNL (s : String) : Prop := ∀ c ∈ s.data, c ≠ '\n'

/-- The amendment's conditions on an edited host: the alias trims to a
non-empty, non-wildcard name and no serialised field smuggles in a newline. -/
def goodEdit (h : Host) : Prop :=
  trimSpace h.aliasName ≠ "" ∧ trimSpace h.aliasName ≠ "*"
  ∧ noNL h.aliasName ∧ noNL h.hostname ∧ noNL h.user ∧ noNL h.port
  ∧ noNL h.identityFile ∧ ∀ g ∈ h.groups, noNL g

instance instDecNoNL (s : String) : Decidable (noNL s) := by
  unfold noNL
  infer_instance

instance instDecGoodEdit (h : Host) : Decidable (goodEdit h) := by
  unfold goodEdit
  infer_instance

theorem joinStr_comma_noNL (gs : List String)
    (h : ∀ g ∈ gs, noNL g) : noNL (joinStr ", " gs) := by
  induction gs with
  | nil => intro c hc; simp [joinStr] at hc
  | cons x gs ih =>
    cases gs with
    | nil =>
      intro c hc
      exact h x (by simp) c hc
    | cons y t =>
      intro c hc
      have hstep : joinStr ", " (x :: y :: t) = x ++ ", " ++ joinStr ", " (y :: t) :=
        rfl
      rw [hstep, String.data_append, String.data_append] at hc
      rcases List.mem_append.mp hc with hc1 | hc1
      · rcases List.mem_append.mp hc1 with hc2 | hc2
        · exact h x (by simp) c hc2
        · intro hcon
          subst hcon
          exact absurd hc2 (by decide)
      · exact ih (fun g hg => h g (by simp [hg])) c hc1

theorem mem_if_singleton (s : String) (c : Prop) [Decidable c] (x : String)
    (hmem : s ∈ (if c then [x] else [])) : s = x := by
  by_cases hcc : c
  · rw [if_pos hcc] at hmem
    simpa using hmem
  · rw [if_neg hcc] at hmem
    simp at hmem

theorem mem_blockLines (h : Host) (s : String) (hs : s ∈ blockLines h) :
    s = "# @group " ++ joinStr ", " h.groups
    ∨ s = "Host " ++ h.aliasName
    ∨ s = "    Hostname " ++ h.hostname
    ∨ s = "    User " ++ h.user
    ∨ s = "    Port " ++ h.port
    ∨ s = "    IdentityFile \"" ++ h.identityFile ++ "\"" := by
  unfold blockLines at hs
  rcases List.mem_append.mp hs with hs | hs
  · rcases List.mem_append.mp hs with hs | hs
    · rcases List.mem_append.mp hs with hs | hs
      · rcases List.mem_append.mp hs with hs | hs
        · exact Or.inl (mem_if_singleton s _ _ hs)
        · simp only [List.mem_cons, List.mem_singleton] at hs
          rcases hs with hs | hs | hs
          · exact Or.inr (Or.inl hs)
          · exact Or.inr (Or.inr (Or.inl hs))
          · simp at hs
      · exact Or.inr (Or.inr (Or.inr (Or.inl (mem_if_singleton s _ _ hs))))
    · exact Or.inr (Or.inr (Or.inr (Or.inr (Or.inl (mem_if_singleton s _ _ hs)))))
  · exact Or.inr (Or.inr (Or.inr (Or.inr (Or.inr (mem_if_singleton s _ _ hs)))))

theorem blockLines_noNL (h : Host) (hge : goodEdit h) :
    ∀ s ∈ blockLines h, ∀ c ∈ s.data, c ≠ '\n' := by
  obtain ⟨-, -, ha, hh, hu, hp, hi, hgs⟩ := hge
  intro s hs
  have hlit : ∀ (lit : String), (∀ c ∈ lit.data, c ≠ '\n') → ∀ (x : String),
      noNL x → ∀ c ∈ (lit ++ x).data, c ≠ '\n' := by
    intro lit hlitc x hx c hc
    rw [String.data_append] at hc
    rcases List.mem_append.mp hc with hc | hc
    · exact hlitc c hc
    · exact hx c hc
  rcases mem_blockLines h s hs with hs | hs | hs | hs | hs | hs
  · subst hs
    exact hlit "# @group " (by decide) _ (joinStr_comma_noNL _ hgs)
  · subst hs
    exact hlit "Host " (by decide) _ ha
  · subst hs
    exact hlit "    Hostname " (by decide) _ hh
  · subst hs
    exact hlit "    User " (by decide) _ hu
  · subst hs
    exact hlit "    Port " (by decide) _ hp
  · subst hs
    intro c hcm
    rw [String.data_append, String.data_append] at hcm
    rcases List.mem_append.mp hcm with hcm | hcm
    · rcases List.mem_append.mp hcm with hcm | hcm
      · revert hcm
        have hq : ∀ c ∈ ("    IdentityFile \"" : String).data, c ≠ '\n' := by
          decide
        exact hq c
      · exact hi c hcm
    · intro hcon
      subst hcon
      simp at hcm

theorem blockLines_ne_nil (h : Host) : blockLines h ≠ [] := by
  intro hcon
  have hmem : ("Host " ++ h.aliasName) ∈ blockLines h := by
    unfold blockLines
    simp
  rw [hcon] at hmem
  simp at hmem

theorem map_mk_dropCR (M : List String) :
    ((M.map String.data).map dropCR).map (fun cs => (⟨cs⟩ : String))
      = M.map dropCRStr := by
  rw [List.map_map, List.map_map]
  rfl

/-- The writer's re-split of the serialised block. -/
theorem splitLines_buildHostBlock (h : Host) (hge : goodEdit h) :
    splitLines (buildHostBlock h) = (blockLines h).map dropCRStr := by
  unfold splitLines
  rw [buildHostBlock_data]
  rw [splitLinesData_joinNL_nl ((blockLines h).map String.data)
    (by simpa using blockLines_ne_nil h)
    (by
      intro l hl c hc
      obtain ⟨t, ht, rfl⟩ := List.mem_map.mp hl
      exact blockLines_noNL h hge t ht c hc)]
  exact map_mk_dropCR _

/-- The serialised block contributes exactly one host entry, at the returned
`newLineStart` offset. -/
theorem hostSpecAux_blockLines (h : Host) (hge : goodEdit h)
    (p q : String) (n : Nat) :
    (hostSpecAux ((blockLines h).map dropCRStr) p n).map SpecEntry.lineStart
      = [n + 1 + (if h.groups ≠ [] then 1 else 0)] := by
  rw [hostSpecAux_lineStart_dropCR (blockLines h) p q n]
  obtain ⟨hne, hstar, -⟩ := hge
  have hhost : hostDirValue ("Host " ++ h.aliasName) = some (trimSpace h.aliasName) := by
    rw [hostDirValue_hostLine, if_neg hne]
  have htail : ∀ (pv : String) (m : Nat),
      hostSpecAux (("    Hostname " ++ h.hostname)
          :: ((if h.user ≠ "" then ["    User " ++ h.user] else [])
            ++ (if h.port ≠ "" ∧ h.port ≠ "22" then ["    Port " ++ h.port] else [])
            ++ (if h.identityFile ≠ "" then
                  ["    IdentityFile \"" ++ h.identityFile ++ "\""]
                else []))) pv m = [] := by
    intro pv m
    apply hostSpecAux_all_none
    intro l hl
    simp only [List.mem_cons, List.mem_append] at hl
    rcases hl with hl | (hl | hl) | hl
    · subst hl; exact hostDirValue_hostnameLine _
    · by_cases hc : h.user ≠ ""
      · rw [if_pos hc] at hl
        simp only [List.mem_singleton] at hl
        subst hl
        exact hostDirValue_userLine _
      · rw [if_neg hc] at hl; simp at hl
    · by_cases hc : h.port ≠ "" ∧ h.port ≠ "22"
      · rw [if_pos hc] at hl
        simp only [List.mem_singleton] at hl
        subst hl
        exact hostDirValue_portLine _
      · rw [if_neg hc] at hl; simp at hl
    · by_cases hc : h.identityFile ≠ ""
      · rw [if_pos hc] at hl
        simp only [List.mem_singleton] at hl
        subst hl
        exact hostDirValue_identityLine _
      · rw [if_neg hc] at hl; simp at hl
  by_cases hg : h.groups ≠ []
  · have hshape : blockLines h
        = ("# @group " ++ joinStr ", " h.groups)
          :: ("Host " ++ h.aliasName)
          :: ("    Hostname " ++ h.hostname)
          :: ((if h.user ≠ "" then ["    User " ++ h.user] else [])
            ++ (if h.port ≠ "" ∧ h.port ≠ "22" then ["    Port " ++ h.port] else [])
            ++ (if h.identityFile ≠ "" then
                  ["    IdentityFile \"" ++ h.identityFile ++ "\""]
                else [])) := by
      unfold blockLines
      rw [if_pos hg]
      simp [List.append_assoc]
    rw [hshape, hostSpecAux_cons, hostDirValue_magicLine, hostSpecAux_cons, hhost]
    dsimp only
    rw [if_neg hstar, htail]
    simp [hg]
  · have hshape : blockLines h
        = ("Host " ++ h.aliasName)
          :: ("    Hostname " ++ h.hostname)
          :: ((if h.user ≠ "" then ["    User " ++ h.user] else [])
            ++ (if h.port ≠ "" ∧ h.port ≠ "22" then ["    Port " ++ h.port] else [])
            ++ (if h.identityFile ≠ "" then
                  ["    IdentityFile \"" ++ h.identityFile ++ "\""]
                else [])) := by
      unfold blockLines
      rw [if_neg hg]
      simp [List.append_assoc]
    rw [hshape, hostSpecAux_cons, hhost]
    dsimp only
    rw [if_neg hstar, htail]
    simp [hg]

/-! ### Bounds and contents of `findBlockEnd` -/

theorem backUpBlanks_le (lines : List String) (bs e : Nat) :
    backUpBlanks lines bs e ≤ e := by
  induction e with
  | zero => simp [backUpBlanks]
  | succ e ih =>
    simp only [backUpBlanks]
    by_cases h : bs + 1 < e + 1 ∧ trimSpace (lines.getD e "") = ""
    · rw [if_pos h]
      omega
    · rw [if_neg h]

theorem backUpBlanks_ge (lines : List String) (bs e : Nat) (h0 : bs + 1 ≤ e) :
    bs + 1 ≤ backUpBlanks lines bs e := by
  induction e with
  | zero => exact absurd h0 (by omega)
  | succ e ih =>
    simp only [backUpBlanks]
    by_cases h : bs + 1 < e + 1 ∧ trimSpace (lines.getD e "") = ""
    · rw [if_pos h]
      exact ih (by omega)
    · rw [if_neg h]
      exact h0

theorem findBlockEndFrom_ge (lines : List String) (bs i : Nat)
    (hbs : bs < lines.length) (hi : bs + 1 ≤ i) :
    bs + 1 ≤ findBlockEndFrom lines bs i := by
  unfold findBlockEndFrom
  revert hi
  suffices h : ∀ fuel j, bs + 1 ≤ j →
      bs + 1 ≤ findBlockEndFromFuel lines bs fuel j from h _ i
  intro fuel
  induction fuel with
  | zero =>
    intro j hj
    simp only [findBlockEndFromFuel]
    omega
  | succ f ih =>
    intro j hj
    simp only [findBlockEndFromFuel]
    by_cases hlen : j < lines.length
    · rw [if_pos hlen]
      by_cases hhost : isHostKeywordLine (lines.getD j "") = true
      · rw [if_pos hhost]
        apply backUpBlanks_ge
        by_cases hcc : bs + 1 < j ∧ containsStr (lines.getD (j - 1) "") "@group"
        · rw [if_pos hcc]
          omega
        · rw [if_neg hcc]
          omega
      · rw [if_neg hhost]
        exact ih (j + 1) (by omega)
    · rw [if_neg hlen]
      omega

theorem findBlockEndFrom_le (lines : List String) (bs i : Nat) :
    findBlockEndFrom lines bs i ≤ lines.length := by
  unfold findBlockEndFrom
  suffices h : ∀ fuel j, findBlockEndFromFuel lines bs fuel j ≤ lines.length
    from h _ i
  intro fuel
  induction fuel with
  | zero =>
    intro j
    simp only [findBlockEndFromFuel]
    exact Nat.le_refl _
  | succ f ih =>
    intro j
    simp only [findBlockEndFromFuel]
    by_cases hlen : j < lines.length
    · rw [if_pos hlen]
      by_cases hhost : isHostKeywordLine (lines.getD j "") = true
      · rw [if_pos hhost]
        have h1 := backUpBlanks_le lines bs
          (if bs + 1 < j ∧ containsStr (lines.getD (j - 1) "") "@group" then j - 1
           else j)
        by_cases hcc : bs + 1 < j ∧ containsStr (lines.getD (j - 1) "") "@group"
        · rw [if_pos hcc] at h1 ⊢
          omega
        · rw [if_neg hcc] at h1 ⊢
          omega
      · rw [if_neg hhost]
        exact ih (j + 1)
    · rw [if_neg hlen]

theorem findBlockEndFrom_no_host (lines : List String) (bs i : Nat) :
    ∀ j, i ≤ j → j < findBlockEndFrom lines bs i →
      ¬ isHostKeywordLine (lines.getD j "") := by
  unfold findBlockEndFrom
  suffices h : ∀ fuel k, lines.length - k ≤ fuel → ∀ j, k ≤ j →
      j < findBlockEndFromFuel lines bs fuel k →
      ¬ isHostKeywordLine (lines.getD j "")
    from h _ i (Nat.le_refl _)
  intro fuel
  induction fuel with
  | zero =>
    intro k hf j hkj hjlt
    simp only [findBlockEndFromFuel] at hjlt
    omega
  | succ f ih =>
    intro k hf j hkj hjlt
    simp only [findBlockEndFromFuel] at hjlt
    by_cases hlen : k < lines.length
    · rw [if_pos hlen] at hjlt
      by_cases hhost : isHostKeywordLine (lines.getD k "") = true
      · rw [if_pos hhost] at hjlt
        have h1 := backUpBlanks_le lines bs
          (if bs + 1 < k ∧ containsStr (lines.getD (k - 1) "") "@group" then k - 1
           else k)
        by_cases hcc : bs + 1 < k ∧ containsStr (lines.getD (k - 1) "") "@group"
        · rw [if_pos hcc] at h1 hjlt
          omega
        · rw [if_neg hcc] at h1 hjlt
          omega
      · rw [if_neg hhost] at hjlt
        by_cases hjk : j = k
        · subst hjk
          simpa using hhost
        · exact ih (k + 1) (by omega) j (by omega) hjlt
    · rw [if_neg hlen] at hjlt
      omega

theorem findBlockEnd_gt (lines : List String) (bs : Nat) (hbs : bs < lines.length) :
    bs < findBlockEnd lines bs := by
  have := findBlockEndFrom_ge lines bs (bs + 1) hbs (by omega)
  unfold findBlockEnd
  omega

theorem findBlockEnd_le (lines : List String) (bs : Nat) :
    findBlockEnd lines bs ≤ lines.length :=
  findBlockEndFrom_le lines bs (bs + 1)

theorem findBlockEnd_no_host (lines : List String) (bs : Nat) :
    ∀ j, bs + 1 ≤ j → j < findBlockEnd lines bs →
      ¬ isHostKeywordLine (lines.getD j "") :=
  findBlockEndFrom_no_host lines bs (bs + 1)

/-- A line carrying a valued `Host` directive satisfies the writer's
`EqualFold` keyword test. -/
theorem isHostKeywordLine_of_hostDirValue (l : String) (v : String)
    (h : hostDirValue l = some v) : isHostKeywordLine l = true := by
  unfold hostDirValue lineDirective at h
  unfold isHostKeywordLine parseHostLine equalFold
  dsimp only at h ⊢
  by_cases hb : trimSpace l = "" ∨ hasPfx (trimSpace l) "#"
  · rw [if_pos hb] at h
    simp at h
  · rw [if_neg hb] at h ⊢
    cases hkv : parseKeywordValue (trimSpace l) with
    | none =>
      rw [hkv] at h
      simp at h
    | some p =>
      obtain ⟨kw, vv⟩ := p
      rw [hkv] at h
      dsimp only at h ⊢
      by_cases hkw : toLowerStr kw = "host"
      · have hlow : toLowerStr "host" = "host" := by decide
        simp [hkw, hlow]
      · rw [if_neg hkw] at h
        simp at h

/-! ### Remaining helpers for the fidelity proof -/

theorem hostDirValue_comment (l : String)
    (h : hasPfx (trimSpace l) "#" = true) : hostDirValue l = none := by
  unfold hostDirValue lineDirective
  rw [if_pos (Or.inr h)]

theorem hostDirValue_none_of_not_host (l : String)
    (h : ¬ isHostKeywordLine l = true) : hostDirValue l = none := by
  cases hhd : hostDirValue l with
  | none => rfl
  | some v => exact absurd (isHostKeywordLine_of_hostDirValue l v hhd) h

theorem dropCR_subset (cs : List Char) : ∀ c ∈ dropCR cs, c ∈ cs := by
  intro c hc
  unfold dropCR at hc
  by_cases h : cs.getLast? = some '\r'
  · rw [if_pos h] at hc
    exact (List.dropLast_sublist cs).mem hc
  · rw [if_neg h] at hc
    exact hc

theorem splitLinesCore_noNL : ∀ (cs acc : List Char), (∀ c ∈ acc, c ≠ '\n') →
    ∀ l ∈ splitLinesCore cs acc, ∀ c ∈ l, c ≠ '\n' := by
  intro cs
  induction cs with
  | nil =>
    intro acc hacc l hl c hc
    simp only [splitLinesCore, List.mem_singleton] at hl
    subst hl
    have h1 := dropCR_subset _ c hc
    rw [List.mem_reverse] at h1
    exact hacc c h1
  | cons x rest ih =>
    intro acc hacc l hl c hc
    by_cases hx : x = '\n'
    · subst hx
      simp only [splitLinesCore, if_pos rfl] at hl
      by_cases hrest : rest = []
      · rw [if_pos hrest] at hl
        have hl : l = dropCR acc.reverse := by simpa using hl
        subst hl
        have h1 := dropCR_subset _ c hc
        rw [List.mem_reverse] at h1
        exact hacc c h1
      · rw [if_neg hrest] at hl
        rcases List.mem_cons.mp hl with hl | hl
        · subst hl
          have h1 := dropCR_subset _ c hc
          rw [List.mem_reverse] at h1
          exact hacc c h1
        · exact ih [] (by simp) l hl c hc
    · simp only [splitLinesCore, if_neg hx] at hl
      refine ih (x :: acc) ?_ l hl c hc
      intro d hd
      rcases List.mem_cons.mp hd with hd | hd
      · subst hd
        exact hx
      · exact hacc d hd

theorem splitLinesData_noNL (cs : List Char) :
    ∀ l ∈ splitLinesData cs, ∀ c ∈ l, c ≠ '\n' := by
  intro l hl
  rw [splitLinesData] at hl
  by_cases hcs : cs = []
  · rw [if_pos hcs] at hl
    simp at hl
  · rw [if_neg hcs] at hl
    exact splitLinesCore_noNL cs [] (by simp) l hl

theorem splitLines_noNL (raw : String) :
    ∀ s ∈ splitLines raw, ∀ c ∈ s.data, c ≠ '\n' := by
  intro s hs c hc
  unfold splitLines at hs
  obtain ⟨l, hl, rfl⟩ := List.mem_map.mp hs
  exact splitLinesData_noNL raw.data l hl c hc

theorem dropCRStr_noNL (s : String) (h : ∀ c ∈ s.data, c ≠ '\n') :
    ∀ c ∈ (dropCRStr s).data, c ≠ '\n' := by
  intro c hc
  exact h c (dropCR_subset s.data c hc)

theorem mem_drop_take (xs : List String) (a b : Nat) (l : String)
    (hl : l ∈ (xs.drop a).take b) :
    ∃ j, j < b ∧ a + j < xs.length ∧ l = xs.getD (a + j) "" := by
  obtain ⟨k, hk, hget⟩ := List.mem_iff_getElem.mp hl
  have hk1 : k < b := lt_of_lt_of_le hk (by
    have := List.length_take_le b (xs.drop a)
    omega)
  have hk2 : k < (xs.drop a).length := by
    have h1 : ((xs.drop a).take b).length ≤ (xs.drop a).length :=
      List.length_take_le' b (xs.drop a)
    omega
  have hk3 : a + k < xs.length := by
    have := List.length_drop a xs
    omega
  refine ⟨k, hk1, hk3, ?_⟩
  rw [← hget]
  rw [List.getElem_take, List.getElem_drop]
  rw [List.getD_eq_getElem xs "" hk3]

theorem magicStartOf_le (lines : List String) (bs : Nat) :
    magicStartOf lines bs ≤ bs := by
  unfold magicStartOf
  by_cases h : 0 < bs ∧ containsStr (lines.getD (bs - 1) "") "@group" = true
  · rw [if_pos h]
    omega
  · rw [if_neg h]

theorem map_lineStart_proj (hosts : List Host) :
    hosts.map Host.lineStart = (hosts.map projHost).map SpecEntry.lineStart := by
  rw [List.map_map]
  rfl

/-- Explicit form of a successful `ReplaceHostBlock` call whose `lineStart`
points at a genuine `Host` keyword line (so the tolerance never fires). -/
theorem ReplaceHostBlock_ok (h : Host) (raw : String)
    (h0 : ¬ h.lineStart = 0)
    (hlt : h.lineStart - 1 < (splitLines raw).length)
    (hhost : isHostKeywordLine ((splitLines raw).getD (h.lineStart - 1) "") = true) :
    ReplaceHostBlock h raw = .ok
      { output :=
          (let out := joinStr "\n"
            ((splitLines raw).take (magicStartOf (splitLines raw) (h.lineStart - 1))
              ++ splitLines (buildHostBlock h)
              ++ (splitLines raw).drop (findBlockEnd (splitLines raw) (h.lineStart - 1)))
           if raw ≠ "" ∧ endsWithNL raw = true ∧ ¬ endsWithNL out = true then
             out ++ "\n"
           else out)
        newLineStart := magicStartOf (splitLines raw) (h.lineStart - 1) + 1
          + (if h.groups ≠ [] then 1 else 0)
        lineDelta := ((splitLines (buildHostBlock h)).length : Int)
          - ((findBlockEnd (splitLines raw) (h.lineStart - 1) : Int)
            - (magicStartOf (splitLines raw) (h.lineStart - 1) : Int)) } := by
  unfold ReplaceHostBlock
  rw [if_neg h0]
  dsimp only
  rw [if_neg (by omega : ¬ (splitLines raw).length ≤ h.lineStart - 1)]
  have hadj : adjustBlockStart (splitLines raw) (h.lineStart - 1)
      = some (h.lineStart - 1) := by
    unfold adjustBlockStart
    rw [if_pos hhost]
  rw [hadj]

/-- Modelled from the spec: the propagation contract of §4.4 together with
step 5 of the §4.5 save pipeline (the `editSavedMsg` handler of the
interactive model is not among the source files): the edited host,
identified by source file and original line start, is replaced by the
updated host carrying the returned `new_line_start`; every other host in
the same file whose `line_start` exceeds the original is shifted by
`line_delta`. -/
def applyLineDelta (hosts : List Host) (src : String) (orig : Nat)
    (updated : Host) (delta : Int) : List Host :=
  hosts.map (fun x =>
    if x.sourceFile = src then
      if x.lineStart = orig then updated
      else if orig < x.lineStart then
        { x with lineStart := ((x.lineStart : Int) + delta).toNat }
      else x
    else x)

/-- Decomposition of the closed-form host list around an edited block: the
entries split into those before the block's first line, the edited block's
single entry, and the entries of the preserved tail, the latter shifted by
the block-end offset. -/
theorem hostSpec_decomp (lines : List String) (L : Nat)
    (hL0 : 0 < L) (hLlen : L ≤ lines.length) (v : String)
    (hv : hostDirValue (lines.getD (L - 1) "") = some v) (hvstar : v ≠ "*")
    (hgc : ∀ l ∈ lines, containsStr l "@group" = true →
      hasPfx (trimSpace l) "#" = true) :
    (hostSpec lines).map SpecEntry.lineStart
      = (hostSpecAux (lines.take (magicStartOf lines (L - 1))) "" 0).map
          SpecEntry.lineStart
        ++ [L]
        ++ ((hostSpecAux (lines.drop (findBlockEnd lines (L - 1))) "" 0).map
              SpecEntry.lineStart).map (fun a => a + findBlockEnd lines (L - 1)) := by
  have hbs : L - 1 < lines.length := by omega
  have hms_le : magicStartOf lines (L - 1) ≤ L - 1 := magicStartOf_le lines (L - 1)
  have hbe_gt : L - 1 < findBlockEnd lines (L - 1) := findBlockEnd_gt lines (L - 1) hbs
  have hbe_le : findBlockEnd lines (L - 1) ≤ lines.length := findBlockEnd_le lines (L - 1)
  -- the five-segment decomposition of the line list
  have hM2eq : (lines.drop (L - 1 + 1)).take (findBlockEnd lines (L - 1) - (L - 1 + 1))
      ++ lines.drop (findBlockEnd lines (L - 1)) = lines.drop (L - 1 + 1) := by
    have h1 := List.take_append_drop
      (findBlockEnd lines (L - 1) - (L - 1 + 1)) (lines.drop (L - 1 + 1))
    have h2 : (lines.drop (L - 1 + 1)).drop (findBlockEnd lines (L - 1) - (L - 1 + 1))
        = lines.drop (findBlockEnd lines (L - 1)) := by
      rw [List.drop_drop]
      congr 1
      omega
    rw [h2] at h1
    exact h1
  have hdropbs : lines.drop (L - 1) = lines.getD (L - 1) "" :: lines.drop (L - 1 + 1) := by
    rw [List.getD_eq_getElem _ _ hbs]
    exact List.drop_eq_getElem_cons hbs
  have hdecomp : lines
      = lines.take (magicStartOf lines (L - 1))
        ++ ((lines.take (L - 1)).drop (magicStartOf lines (L - 1))
          ++ ([lines.getD (L - 1) ""]
            ++ ((lines.drop (L - 1 + 1)).take
                  (findBlockEnd lines (L - 1) - (L - 1 + 1))
              ++ lines.drop (findBlockEnd lines (L - 1))))) := by
    rw [hM2eq]
    rw [show ([lines.getD (L - 1) ""] ++ lines.drop (L - 1 + 1))
        = lines.drop (L - 1) from hdropbs.symm]
    rw [show lines.take (magicStartOf lines (L - 1))
          ++ ((lines.take (L - 1)).drop (magicStartOf lines (L - 1)) ++ lines.drop (L - 1))
        = (lines.take (magicStartOf lines (L - 1))
          ++ (lines.take (L - 1)).drop (magicStartOf lines (L - 1))) ++ lines.drop (L - 1)
      from (List.append_assoc _ _ _).symm]
    have htk : lines.take (magicStartOf lines (L - 1))
        ++ (lines.take (L - 1)).drop (magicStartOf lines (L - 1)) = lines.take (L - 1) := by
      have h3 : (lines.take (L - 1)).take (magicStartOf lines (L - 1))
          = lines.take (magicStartOf lines (L - 1)) := by
        rw [List.take_take]
        congr 1
        omega
      rw [← h3]
      exact List.take_append_drop _ _
    rw [htk, List.take_append_drop]
  -- segment lengths
  have hlen_take : (lines.take (magicStartOf lines (L - 1))).length
      = magicStartOf lines (L - 1) := by
    rw [List.length_take]
    omega
  have hlen_M1 : ((lines.take (L - 1)).drop (magicStartOf lines (L - 1))).length
      = L - 1 - magicStartOf lines (L - 1) := by
    rw [List.length_drop, List.length_take]
    omega
  have hlen_M2 : ((lines.drop (L - 1 + 1)).take
      (findBlockEnd lines (L - 1) - (L - 1 + 1))).length
      = findBlockEnd lines (L - 1) - (L - 1 + 1) := by
    rw [List.length_take, List.length_drop]
    omega
  -- spec of each segment
  conv_lhs => rw [hostSpec, hdecomp]
  rw [hostSpecAux_append, hostSpecAux_append, hostSpecAux_append, hostSpecAux_append]
  rw [hlen_take, hlen_M1, hlen_M2]
  simp only [Nat.zero_add]
  -- M1 contributes nothing
  have hM1spec : ∀ (p : String) (n : Nat),
      hostSpecAux ((lines.take (L - 1)).drop (magicStartOf lines (L - 1))) p n = [] := by
    intro p n
    apply hostSpecAux_all_none
    intro l hl
    unfold magicStartOf at hl
    by_cases hmc : 0 < L - 1 ∧ containsStr (lines.getD (L - 1 - 1) "") "@group" = true
    · rw [if_pos hmc] at hl
      have hj : l = lines.getD (L - 1 - 1) "" := by
        have h4 : (lines.take (L - 1)).drop (L - 1 - 1)
            = [lines.getD (L - 1 - 1) ""] := by
          have h5 : (lines.take (L - 1)).length = L - 1 := by
            rw [List.length_take]
            omega
          apply List.ext_getElem
          · rw [List.length_drop, h5]
            simp
            omega
          · intro i hi1 hi2
            rw [List.getElem_drop, List.getElem_take]
            have hi0 : i = 0 := by
              rw [List.length_drop, h5] at hi1
              omega
            subst hi0
            rw [List.getD_eq_getElem _ _ (by omega)]
            simp
        rw [h4] at hl
        simpa using hl
      subst hj
      apply hostDirValue_comment
      apply hgc
      · rw [List.getD_eq_getElem _ _ (by omega)]
        exact List.getElem_mem _
      · exact hmc.2
    · rw [if_neg hmc] at hl
      have hnil : (lines.take (L - 1)).drop (L - 1) = [] := by
        apply List.drop_eq_nil_of_le
        rw [List.length_take]
        omega
      rw [hnil] at hl
      simp at hl
  rw [hM1spec]
  -- the Host line contributes exactly one entry
  have hhostspec : ∀ (p : String),
      hostSpecAux [lines.getD (L - 1) ""] p (magicStartOf lines (L - 1)
          + (L - 1 - magicStartOf lines (L - 1)))
        = [⟨v, L, parseMagicComment p⟩] := by
    intro p
    rw [hostSpecAux_cons, hv]
    dsimp only
    rw [if_neg hvstar]
    have harith : magicStartOf lines (L - 1) + (L - 1 - magicStartOf lines (L - 1)) + 1
        = L := by omega
    rw [harith]
    rfl
  rw [hhostspec]
  -- the lines between the Host line and the block end contribute nothing
  have hM2spec : ∀ (p : String) (n : Nat),
      hostSpecAux ((lines.drop (L - 1 + 1)).take
        (findBlockEnd lines (L - 1) - (L - 1 + 1))) p n = [] := by
    intro p n
    apply hostSpecAux_all_none
    intro l hl
    obtain ⟨j, hj1, hj2, rfl⟩ := mem_drop_take lines _ _ l hl
    apply hostDirValue_none_of_not_host
    apply findBlockEnd_no_host lines (L - 1) (L - 1 + 1 + j) (by omega) (by omega)
  rw [hM2spec]
  -- assemble; the tail gets shifted by the block end
  rw [List.map_append, List.map_append, List.map_append, List.map_append]
  simp only [List.length_singleton]
  have harith2 : magicStartOf lines (L - 1) + (L - 1 - magicStartOf lines (L - 1))
      + 1 + (findBlockEnd lines (L - 1) - (L - 1 + 1)) = findBlockEnd lines (L - 1) := by
    omega
  rw [harith2]
  rw [hostSpecAux_lineStart_shift (lines.drop (findBlockEnd lines (L - 1))) _ "" _]
  simp [List.map_map]

/-- Decidable equality for `Except`, so concrete writer results can be
checked by `decide`. -/
instance instDecEqExcept {ε α : Type} [DecidableEq ε] [DecidableEq α] :
    DecidableEq (Except ε α)
  | .error a, .error b =>
    if h : a = b then .isTrue (congrArg Except.error h)
    else .isFalse (fun hc => h (Except.error.inj hc))
  | .error _, .ok _ => .isFalse (fun hc => Except.noConfusion hc)
  | .ok _, .error _ => .isFalse (fun hc => Except.noConfusion hc)
  | .ok a, .ok b =>
    if h : a = b then .isTrue (congrArg Except.ok h)
    else .isFalse (fun hc => h (Except.ok.inj hc))

set_option maxHeartbeats 1000000 in
/-- Core of the amended line-start fidelity claim, stated over the parsed
host list of a single config file. -/
theorem lineStart_fidelity_core
    (raw path : String) (h0 : Host) (edited : Host) (r : ReplaceResult)
    (hmem : h0 ∈ parseFile noInc path (splitLines raw))
    (hgc : ∀ l ∈ splitLines raw, containsStr l "@group" = true →
        hasPfx (trimSpace l) "#" = true)
    (hls : edited.lineStart = h0.lineStart)
    (hgood : goodEdit edited)
    (hrep : ReplaceHostBlock edited raw = .ok r) :
    (parseFile noInc path (splitLines r.output)).map Host.lineStart
      = (applyLineDelta (parseFile noInc path (splitLines raw)) path h0.lineStart
          { edited with lineStart := r.newLineStart } r.lineDelta).map
            Host.lineStart := by
  have hproj : projHost h0 ∈ hostSpec (splitLines raw) := by
    rw [← parseFile_hostSpec path]
    exact List.mem_map_of_mem projHost hmem
  obtain ⟨hL0, hLlen, hhd, hstar0, -⟩ := hostSpecAux_mem _ "" 0 _ hproj
  simp only [projHost, Nat.sub_zero, Nat.zero_add] at hL0 hLlen hhd hstar0
  have hbs : h0.lineStart - 1 < (splitLines raw).length := by omega
  have hhostline : isHostKeywordLine
      ((splitLines raw).getD (h0.lineStart - 1) "") = true :=
    isHostKeywordLine_of_hostDirValue _ _ hhd
  have hok := ReplaceHostBlock_ok edited raw
    (by rw [hls]; omega) (by rw [hls]; exact hbs) (by rw [hls]; exact hhostline)
  rw [hok] at hrep
  injection hrep with hr
  subst hr
  rw [hls] at *
  dsimp only
  have hms_le := magicStartOf_le (splitLines raw) (h0.lineStart - 1)
  have hbe_gt := findBlockEnd_gt (splitLines raw) (h0.lineStart - 1) hbs
  have hbe_le := findBlockEnd_le (splitLines raw) (h0.lineStart - 1)
  have hNb : splitLines (buildHostBlock edited) = (blockLines edited).map dropCRStr :=
    splitLines_buildHostBlock edited hgood
  have hNbne : splitLines (buildHostBlock edited) ≠ [] := by
    rw [hNb]
    simpa using blockLines_ne_nil edited
  have hlen_take : ((splitLines raw).take
      (magicStartOf (splitLines raw) (h0.lineStart - 1))).length
      = magicStartOf (splitLines raw) (h0.lineStart - 1) := by
    rw [List.length_take]
    omega
  have hresne : (splitLines raw).take (magicStartOf (splitLines raw) (h0.lineStart - 1))
      ++ splitLines (buildHostBlock edited)
      ++ (splitLines raw).drop (findBlockEnd (splitLines raw) (h0.lineStart - 1))
      ≠ [] := by
    intro hcon
    rcases List.append_eq_nil.mp hcon with ⟨h1, -⟩
    rcases List.append_eq_nil.mp h1 with ⟨-, h2⟩
    exact hNbne h2
  have hresnl : ∀ s ∈ (splitLines raw).take
        (magicStartOf (splitLines raw) (h0.lineStart - 1))
      ++ splitLines (buildHostBlock edited)
      ++ (splitLines raw).drop (findBlockEnd (splitLines raw) (h0.lineStart - 1)),
      ∀ c ∈ s.data, c ≠ '\n' := by
    intro s hs
    rcases List.mem_append.mp hs with hs | hs
    · rcases List.mem_append.mp hs with hs | hs
      · exact splitLines_noNL raw s (List.mem_of_mem_take hs)
      · rw [hNb] at hs
        obtain ⟨t, ht, rfl⟩ := List.mem_map.mp hs
        exact dropCRStr_noNL t (blockLines_noNL edited hgood t ht)
    · exact splitLines_noNL raw s (List.mem_of_mem_drop hs)
  -- left-hand side: reparse of the written output
  rw [map_lineStart_proj, parseFile_hostSpec]
  have hlhs : (hostSpec (splitLines
      (if raw ≠ "" ∧ endsWithNL raw = true
          ∧ ¬ endsWithNL (joinStr "\n"
            ((splitLines raw).take (magicStartOf (splitLines raw) (h0.lineStart - 1))
              ++ splitLines (buildHostBlock edited)
              ++ (splitLines raw).drop
                  (findBlockEnd (splitLines raw) (h0.lineStart - 1)))) = true
        then joinStr "\n"
            ((splitLines raw).take (magicStartOf (splitLines raw) (h0.lineStart - 1))
              ++ splitLines (buildHostBlock edited)
              ++ (splitLines raw).drop
                  (findBlockEnd (splitLines raw) (h0.lineStart - 1))) ++ "\n"
        else joinStr "\n"
            ((splitLines raw).take (magicStartOf (splitLines raw) (h0.lineStart - 1))
              ++ splitLines (buildHostBlock edited)
              ++ (splitLines raw).drop
                  (findBlockEnd (splitLines raw) (h0.lineStart - 1)))))).map
        SpecEntry.lineStart
      = (hostSpecAux
          ((splitLines raw).take (magicStartOf (splitLines raw) (h0.lineStart - 1))
            ++ splitLines (buildHostBlock edited)
            ++ (splitLines raw).drop
                (findBlockEnd (splitLines raw) (h0.lineStart - 1))) "" 0).map
          SpecEntry.lineStart := by
    by_cases hc : raw ≠ "" ∧ endsWithNL raw = true
        ∧ ¬ endsWithNL (joinStr "\n"
          ((splitLines raw).take (magicStartOf (splitLines raw) (h0.lineStart - 1))
            ++ splitLines (buildHostBlock edited)
            ++ (splitLines raw).drop
                (findBlockEnd (splitLines raw) (h0.lineStart - 1)))) = true
    · rw [if_pos hc]
      exact splitLines_join_lineStarts _ hresne hresnl _ (Or.inr rfl) "" "" 0
    · rw [if_neg hc]
      exact splitLines_join_lineStarts _ hresne hresnl _ (Or.inl rfl) "" "" 0
  rw [hostSpec] at hlhs ⊢
  rw [hlhs]
  rw [hostSpecAux_append, hostSpecAux_append]
  rw [List.map_append, List.map_append]
  rw [hNb]
  rw [hostSpecAux_blockLines edited hgood _ "" _]
  rw [hostSpecAux_lineStart_shift
    ((splitLines raw).drop (findBlockEnd (splitLines raw) (h0.lineStart - 1))) _ "" _]
  rw [hlen_take]
  simp only [Nat.zero_add, List.length_append, List.length_map]
  -- right-hand side: the propagation rule applied to the old host list
  have hsf := parseFile_sourceFile path (splitLines raw)
  have hrhs : (applyLineDelta (parseFile noInc path (splitLines raw)) path
        h0.lineStart
        { edited with lineStart :=
            magicStartOf (splitLines raw) (h0.lineStart - 1) + 1
              + (if edited.groups ≠ [] then 1 else 0) }
        (((blockLines edited).length : Int)
          - ((findBlockEnd (splitLines raw) (h0.lineStart - 1) : Int)
            - (magicStartOf (splitLines raw) (h0.lineStart - 1) : Int)))).map
        Host.lineStart
      = ((parseFile noInc path (splitLines raw)).map Host.lineStart).map
          (fun t => if t = h0.lineStart then
              magicStartOf (splitLines raw) (h0.lineStart - 1) + 1
                + (if edited.groups ≠ [] then 1 else 0)
            else if h0.lineStart < t then
              ((t : Int) + (((blockLines edited).length : Int)
                - ((findBlockEnd (splitLines raw) (h0.lineStart - 1) : Int)
                  - (magicStartOf (splitLines raw) (h0.lineStart - 1) : Int)))).toNat
            else t) := by
    unfold applyLineDelta
    rw [List.map_map, List.map_map]
    apply List.map_congr_left
    intro x hx
    simp only [Function.comp]
    rw [if_pos (hsf x hx)]
    by_cases h1 : x.lineStart = h0.lineStart
    · rw [if_pos h1, if_pos h1]
    · rw [if_neg h1, if_neg h1]
      by_cases h2 : h0.lineStart < x.lineStart
      · rw [if_pos h2, if_pos h2]
      · rw [if_neg h2, if_neg h2]
  rw [hrhs, map_lineStart_proj, parseFile_hostSpec]
  rw [hostSpec_decomp (splitLines raw) h0.lineStart hL0 hLlen h0.aliasName hhd
    hstar0 hgc]
  rw [List.map_append, List.map_append]
  congr 1
  · congr 1
    · -- entries before the edited block keep their lineStart
      symm
      have hid : ∀ q ∈ (hostSpecAux ((splitLines raw).take
            (magicStartOf (splitLines raw) (h0.lineStart - 1))) "" 0).map
            SpecEntry.lineStart,
          (fun t => if t = h0.lineStart then
              magicStartOf (splitLines raw) (h0.lineStart - 1) + 1
                + (if edited.groups ≠ [] then 1 else 0)
            else if h0.lineStart < t then
              ((t : Int) + (((blockLines edited).length : Int)
                - ((findBlockEnd (splitLines raw) (h0.lineStart - 1) : Int)
                  - (magicStartOf (splitLines raw) (h0.lineStart - 1) : Int)))).toNat
            else t) q = q := by
        intro q hq
        obtain ⟨e, he, rfl⟩ := List.mem_map.mp hq
        obtain ⟨-, hub, -, -, -⟩ := hostSpecAux_mem _ "" 0 _ he
        rw [hlen_take] at hub
        have hq1 : ¬ e.lineStart = h0.lineStart := by omega
        have hq2 : ¬ h0.lineStart < e.lineStart := by omega
        simp only [if_neg hq1, if_neg hq2]
      exact (List.map_congr_left hid).trans (List.map_id _)
    · -- the edited entry reparses at the returned newLineStart
      simp only [List.map_cons, List.map_nil, if_true]
  · -- entries after the block shift by the line delta
    rw [List.map_map, List.map_map, List.map_map]
    apply List.map_congr_left
    intro e he
    obtain ⟨hlb, -, -, -, -⟩ := hostSpecAux_mem _ "" 0 _ he
    simp only [Function.comp]
    have h1 : ¬ (e.lineStart + findBlockEnd (splitLines raw) (h0.lineStart - 1)
        = h0.lineStart) := by omega
    have h2 : h0.lineStart
        < e.lineStart + findBlockEnd (splitLines raw) (h0.lineStart - 1) := by
      omega
    simp only [if_neg h1, if_pos h2]
    omega

/-- C1: Line-start fidelity (amended). For a config file in which every line
containing "@group" is a comment line (the writer's block-boundary scan treats
any line containing "@group" as a magic comment, so a Host line such as
"Host a@group" breaks fidelity — see the counterexample), replacing the block
of a parsed host h0 with an edited host carrying h0's lineStart and then
applying the propagation rule of the spec (replace the edited host's lineStart
with the returned newLineStart; add the returned lineDelta to the lineStart of
every host of the same file whose original lineStart was strictly greater;
leave the rest unchanged) yields exactly the lineStart values obtained by
re-parsing the rewritten file. -/
theorem C1_lineStart_fidelity
    (raw path : String) (h0 : Host) (edited : Host) (r : ReplaceResult)
    (hmem : h0 ∈ parseFile noInc path (splitLines raw))
    (hgc : ∀ l ∈ splitLines raw, containsStr l "@group" = true →
        hasPfx (trimSpace l) "#" = true)
    (hls : edited.lineStart = h0.lineStart)
    (hgood : goodEdit edited)
    (hrep : ReplaceHostBlock edited raw = .ok r) :
    (parseFile noInc path (splitLines r.output)).map Host.lineStart
      = (applyLineDelta (parseFile noInc path (splitLines raw)) path h0.lineStart
          { edited with lineStart := r.newLineStart } r.lineDelta).map
            Host.lineStart :=
  lineStart_fidelity_core raw path h0 edited r hmem hgc hls hgood hrep

/-- Counterexample to the literal C1: in the file "Host a@group\nHost b\n" the
host "b" is parsed at line 2, yet replacing its block (with identical content)
swallows the preceding real Host line "Host a@group", because the writer
treats any line containing "@group" as a magic comment; the rewritten file
re-parses to a single host while the propagation rule predicts two. -/
theorem C1_counterexample :
    ({ aliasName := "b", hostname := "", user := "", port := "22",
        identityFile := "", groups := [], sourceFile := "cfg",
        lineStart := 2 } : Host)
      ∈ parseFile noInc "cfg" (splitLines "Host a@group\nHost b\n")
    ∧ ReplaceHostBlock
        { aliasName := "b", hostname := "", user := "", port := "22",
          identityFile := "", groups := [], sourceFile := "cfg", lineStart := 2 }
        "Host a@group\nHost b\n"
      = .ok { output := "Host b\n    Hostname \n", newLineStart := 1,
              lineDelta := 0 }
    ∧ (parseFile noInc "cfg" (splitLines "Host b\n    Hostname \n")).map
        Host.lineStart
      ≠ (applyLineDelta
          (parseFile noInc "cfg" (splitLines "Host a@group\nHost b\n")) "cfg" 2
          { aliasName := "b", hostname := "", user := "", port := "22",
            identityFile := "", groups := [], sourceFile := "cfg",
            lineStart := 1 } 0).map Host.lineStart := by
  refine ⟨by decide, by decide, by decide⟩

/-- C1 witness: the two-host scenario file, editing alpha to add group Work. -/
theorem C1_lineStart_fidelity_witness :
    (parseFile noInc "cfg" (splitLines
        "# @group Work\nHost alpha\n    Hostname a.example.com\n\nHost beta\n    Hostname b.example.com\n")).map
        Host.lineStart
      = (applyLineDelta
          (parseFile noInc "cfg" (splitLines
            "Host alpha\n    Hostname a.example.com\n\nHost beta\n    Hostname b.example.com\n"))
          "cfg" 1
          { aliasName := "alpha", hostname := "a.example.com", user := "",
            port := "22", identityFile := "", groups := ["Work"],
            sourceFile := "cfg", lineStart := 2 } 1).map Host.lineStart :=
  C1_lineStart_fidelity
    "Host alpha\n    Hostname a.example.com\n\nHost beta\n    Hostname b.example.com\n"
    "cfg"
    { aliasName := "alpha", hostname := "a.example.com", user := "",
      port := "22", identityFile := "", groups := [], sourceFile := "cfg",
      lineStart := 1 }
    { aliasName := "alpha", hostname := "a.example.com", user := "",
      port := "22", identityFile := "", groups := ["Work"], sourceFile := "cfg",
      lineStart := 1 }
    { output := "# @group Work\nHost alpha\n    Hostname a.example.com\n\nHost beta\n    Hostname b.example.com\n",
      newLineStart := 2, lineDelta := 1 }
    (by decide) (by decide) rfl (by decide) (by decide)

/-- C2: on every successful call, `ReplaceHostBlock` returns
`newLineStart = magicStart + 1 + (1 if the new groups are non-empty else 0)`
and `lineDelta = len(newBlockLines) - (blockEnd - magicStart)`, computed at
the (tolerance-adjusted) block start; on the two-host scenario file, editing
alpha to add group Work returns `(newLineStart = 2, lineDelta = +1)` and
produces exactly the stated file contents. -/
theorem C2_newLineStart_lineDelta :
    (∀ (h : Host) (raw : String) (r : ReplaceResult),
        ReplaceHostBlock h raw = .ok r →
        ∃ bs, adjustBlockStart (splitLines raw) (h.lineStart - 1) = some bs
          ∧ r.newLineStart = magicStartOf (splitLines raw) bs + 1
              + (if h.groups ≠ [] then 1 else 0)
          ∧ r.lineDelta = ((splitLines (buildHostBlock h)).length : Int)
              - ((findBlockEnd (splitLines raw) bs : Int)
                - (magicStartOf (splitLines raw) bs : Int)))
    ∧ ReplaceHostBlock
        { aliasName := "alpha", hostname := "a.example.com", user := "",
          port := "22", identityFile := "", groups := ["Work"],
          sourceFile := "cfg", lineStart := 1 }
        "Host alpha\n    Hostname a.example.com\n\nHost beta\n    Hostname b.example.com\n"
      = .ok { output := "# @group Work\nHost alpha\n    Hostname a.example.com\n\nHost beta\n    Hostname b.example.com\n",
              newLineStart := 2, lineDelta := 1 } := by
  constructor
  · intro h raw r hrep
    unfold ReplaceHostBlock at hrep
    by_cases h0 : h.lineStart = 0
    · rw [if_pos h0] at hrep
      exact Except.noConfusion hrep
    · rw [if_neg h0] at hrep
      dsimp only at hrep
      by_cases hlen : (splitLines raw).length ≤ h.lineStart - 1
      · rw [if_pos hlen] at hrep
        exact Except.noConfusion hrep
      · rw [if_neg hlen] at hrep
        cases hadj : adjustBlockStart (splitLines raw) (h.lineStart - 1) with
        | none =>
          rw [hadj] at hrep
          exact Except.noConfusion hrep
        | some bs =>
          rw [hadj] at hrep
          dsimp only at hrep
          injection hrep with hr
          subst hr
          exact ⟨bs, rfl, rfl, rfl⟩
  · decide

/-- C2 witness: the general return-value formula instantiated on the
two-host scenario file. -/
theorem C2_newLineStart_lineDelta_witness :
    ∃ bs, adjustBlockStart
        (splitLines
          "Host alpha\n    Hostname a.example.com\n\nHost beta\n    Hostname b.example.com\n")
        0 = some bs
      ∧ (2 : Nat) = magicStartOf
          (splitLines
            "Host alpha\n    Hostname a.example.com\n\nHost beta\n    Hostname b.example.com\n")
          bs + 1 + (if (["Work"] : List String) ≠ [] then 1 else 0)
      ∧ (1 : Int) = ((splitLines (buildHostBlock
            { aliasName := "alpha", hostname := "a.example.com", user := "",
              port := "22", identityFile := "", groups := ["Work"],
              sourceFile := "cfg", lineStart := 1 })).length : Int)
          - ((findBlockEnd
              (splitLines
                "Host alpha\n    Hostname a.example.com\n\nHost beta\n    Hostname b.example.com\n")
              bs : Int)
            - (magicStartOf
              (splitLines
                "Host alpha\n    Hostname a.example.com\n\nHost beta\n    Hostname b.example.com\n")
              bs : Int)) :=
  C2_newLineStart_lineDelta.1
    { aliasName := "alpha", hostname := "a.example.com", user := "",
      port := "22", identityFile := "", groups := ["Work"], sourceFile := "cfg",
      lineStart := 1 }
    "Host alpha\n    Hostname a.example.com\n\nHost beta\n    Hostname b.example.com\n"
    { output := "# @group Work\nHost alpha\n    Hostname a.example.com\n\nHost beta\n    Hostname b.example.com\n",
      newLineStart := 2, lineDelta := 1 }
    (by decide)

/-- C3: error classification of `ReplaceHostBlock` (amended). The stale
errors are characterised exactly: `staleZero` iff `lineStart = 0`,
`outOfRange` iff the line index is past the file, and `staleNotHost` iff the
tolerance-adjusted block start fails — where the code's tolerance fires
whenever the addressed line merely CONTAINS "@group" (not only when it begins
with a `@group` magic comment, see the counterexample) and the next line is a
`Host` directive.  Under the precondition that `lineStart` addresses a `Host`
keyword line, no error occurs. -/
theorem C3_staleReference :
    (∀ (h : Host) (raw : String),
        (ReplaceHostBlock h raw = .error .staleZero ↔ h.lineStart = 0)
      ∧ (ReplaceHostBlock h raw = .error .outOfRange ↔
          ¬ h.lineStart = 0 ∧ (splitLines raw).length ≤ h.lineStart - 1)
      ∧ (ReplaceHostBlock h raw = .error .staleNotHost ↔
          ¬ h.lineStart = 0 ∧ h.lineStart - 1 < (splitLines raw).length
            ∧ adjustBlockStart (splitLines raw) (h.lineStart - 1) = none))
    ∧ (∀ (h : Host) (raw : String),
        ¬ h.lineStart = 0 → h.lineStart - 1 < (splitLines raw).length →
        isHostKeywordLine ((splitLines raw).getD (h.lineStart - 1) "") = true →
        ∃ r, ReplaceHostBlock h raw = .ok r) := by
  constructor
  · intro h raw
    unfold ReplaceHostBlock
    by_cases h0 : h.lineStart = 0
    · rw [if_pos h0]
      refine ⟨⟨fun _ => h0, fun _ => rfl⟩, ⟨fun hc => ?_, fun hc => absurd h0 hc.1⟩,
        ⟨fun hc => ?_, fun hc => absurd h0 hc.1⟩⟩
      · exact ReplaceError.noConfusion (Except.error.inj hc)
      · exact ReplaceError.noConfusion (Except.error.inj hc)
    · rw [if_neg h0]
      dsimp only
      by_cases hlen : (splitLines raw).length ≤ h.lineStart - 1
      · rw [if_pos hlen]
        refine ⟨⟨fun hc => ?_, fun hc => absurd hc h0⟩,
          ⟨fun _ => ⟨h0, hlen⟩, fun _ => rfl⟩,
          ⟨fun hc => ?_, fun hc => absurd hc.2.1 (by omega)⟩⟩
        · exact ReplaceError.noConfusion (Except.error.inj hc)
        · exact ReplaceError.noConfusion (Except.error.inj hc)
      · rw [if_neg hlen]
        cases hadj : adjustBlockStart (splitLines raw) (h.lineStart - 1) with
        | none =>
          refine ⟨⟨fun hc => ?_, fun hc => absurd hc h0⟩,
            ⟨fun hc => ?_, fun hc => absurd hc.2 hlen⟩,
            ⟨fun _ => ⟨h0, by omega, rfl⟩, fun _ => rfl⟩⟩
          · exact ReplaceError.noConfusion (Except.error.inj hc)
          · exact ReplaceError.noConfusion (Except.error.inj hc)
        | some bs =>
          dsimp only
          refine ⟨⟨fun hc => Except.noConfusion hc, fun hc => absurd hc h0⟩,
            ⟨fun hc => Except.noConfusion hc, fun hc => absurd hc.2 hlen⟩,
            ⟨fun hc => Except.noConfusion hc,
             fun hc => absurd hc.2.2 (fun hno => Option.noConfusion hno)⟩⟩
  · intro h raw h0 hlt hhost
    exact ⟨_, ReplaceHostBlock_ok h raw h0 hlt hhost⟩

/-- Counterexample to the literal C3: the line at `lineStart = 1` of
"Hostname x@group\nHost b\n" is neither a `Host` directive nor a line
beginning with a `@group` magic comment, so by the claim the call must fail
with StaleReference; the code's Contains-based tolerance nevertheless
advances one line and the call succeeds. -/
theorem C3_counterexample :
    hasPfx (trimSpace "Hostname x@group") "#" = false
    ∧ isHostKeywordLine "Hostname x@group" = false
    ∧ ReplaceHostBlock
        { aliasName := "b", hostname := "bx", user := "", port := "22",
          identityFile := "", groups := [], sourceFile := "cfg", lineStart := 1 }
        "Hostname x@group\nHost b\n"
      = .ok { output := "Host b\n    Hostname bx\n", newLineStart := 1,
              lineDelta := 0 } := by
  refine ⟨by decide, by decide, by decide⟩

/-- C3 witness: both parts of the classification at concrete inputs — a
stale-zero failure and an error-free call addressing a `Host` line. -/
theorem C3_staleReference_witness :
    (ReplaceHostBlock
        { aliasName := "b", hostname := "bx", user := "", port := "22",
          identityFile := "", groups := [], sourceFile := "cfg", lineStart := 0 }
        "Host b\n" = .error .staleZero ↔ (0 : Nat) = 0)
    ∧ ∃ r, ReplaceHostBlock
        { aliasName := "b", hostname := "bx", user := "", port := "22",
          identityFile := "", groups := [], sourceFile := "cfg", lineStart := 1 }
        "Host b\n" = .ok r :=
  ⟨(C3_staleReference.1
      { aliasName := "b", hostname := "bx", user := "", port := "22",
        identityFile := "", groups := [], sourceFile := "cfg", lineStart := 0 }
      "Host b\n").1,
   C3_staleReference.2
      { aliasName := "b", hostname := "bx", user := "", port := "22",
        identityFile := "", groups := [], sourceFile := "cfg", lineStart := 1 }
      "Host b\n" (by decide) (by decide) (by decide)⟩

/-- C4: group non-leakage. Every parsed host's groups come exactly from the
magic comment on the line immediately preceding its `Host` directive (empty
when the `Host` line is the first line); concretely, in a file with an
uncommented first block, a blank line, a `# @group` comment and a second
block, the first host has no groups and the second has exactly the comment's
groups. -/
theorem C4_group_nonleakage :
    (∀ (path : String) (lines : List String) (h : Host),
        h ∈ parseFile noInc path lines →
        h.groups = if h.lineStart = 1 then []
          else parseMagicComment (lines.getD (h.lineStart - 2) ""))
    ∧ (parseFile noInc "cfg" (splitLines
        "Host one\n    Hostname o\n\n# @group Work, Play\nHost two\n    Hostname t\n")).map
        (fun h => (h.aliasName, h.groups))
      = [("one", []), ("two", ["Work", "Play"])] := by
  constructor
  · intro path lines h hmem
    have hproj : projHost h ∈ hostSpec lines := by
      rw [← parseFile_hostSpec path]
      exact List.mem_map_of_mem projHost hmem
    obtain ⟨-, -, -, -, hgr⟩ := hostSpecAux_mem _ "" 0 _ hproj
    simp only [projHost, Nat.zero_add, Nat.sub_zero] at hgr
    by_cases h1 : h.lineStart = 1
    · rw [if_pos h1]
      rw [if_pos h1] at hgr
      rw [hgr]
      decide
    · rw [if_neg h1]
      rw [if_neg h1] at hgr
      exact hgr
  · decide

/-- C4 witness: the general groups-from-previous-line law applied to the
second host of the concrete two-block file. -/
theorem C4_group_nonleakage_witness :
    ({ aliasName := "two", hostname := "t", user := "", port := "22",
        identityFile := "", groups := ["Work", "Play"], sourceFile := "cfg",
        lineStart := 5 } : Host).groups
      = if ({ aliasName := "two", hostname := "t", user := "", port := "22",
              identityFile := "", groups := ["Work", "Play"],
              sourceFile := "cfg", lineStart := 5 } : Host).lineStart = 1 then []
        else parseMagicComment ((splitLines
          "Host one\n    Hostname o\n\n# @group Work, Play\nHost two\n    Hostname t\n").getD
          (({ aliasName := "two", hostname := "t", user := "", port := "22",
              identityFile := "", groups := ["Work", "Play"],
              sourceFile := "cfg", lineStart := 5 } : Host).lineStart - 2) "") :=
  C4_group_nonleakage.1 "cfg"
    (splitLines
      "Host one\n    Hostname o\n\n# @group Work, Play\nHost two\n    Hostname t\n")
    { aliasName := "two", hostname := "t", user := "", port := "22",
      identityFile := "", groups := ["Work", "Play"], sourceFile := "cfg",
      lineStart := 5 }
    (by decide)

theorem finalizeHost_starFree (hs : List Host) (c : Option Host)
    (hst : ∀ h ∈ hs, h.aliasName ≠ "*") :
    ∀ h ∈ finalizeHost hs c, h.aliasName ≠ "*" := by
  cases c with
  | none => exact hst
  | some c =>
    by_cases hstar : c.aliasName = "*"
    · simp only [finalizeHost, if_pos hstar]
      exact hst
    · simp only [finalizeHost, if_neg hstar]
      intro h hm
      rcases List.mem_append.mp hm with hm | hm
      · exact hst h hm
      · simp only [List.mem_singleton] at hm
        subst hm
        simpa using hstar

theorem parseStep_starFree (inc : String → List Host) (path : String)
    (hinc : ∀ f, ∀ h ∈ inc f, h.aliasName ≠ "*")
    (st : ParseState) (line : String)
    (hst : ∀ h ∈ st.hosts, h.aliasName ≠ "*") :
    ∀ h ∈ (parseStep inc path st line).hosts, h.aliasName ≠ "*" := by
  intro h hmem
  unfold parseStep at hmem
  cases hld : lineDirective line with
  | none =>
    rw [hld] at hmem
    exact hst h hmem
  | some p =>
    obtain ⟨kw, value⟩ := p
    rw [hld] at hmem
    dsimp only at hmem
    by_cases h1 : kw = "host"
    · rw [if_pos h1] at hmem
      exact finalizeHost_starFree st.hosts st.current hst h hmem
    · rw [if_neg h1] at hmem
      by_cases h2 : kw = "hostname"
      · rw [if_pos h2] at hmem
        exact hst h hmem
      · rw [if_neg h2] at hmem
        by_cases h3 : kw = "user"
        · rw [if_pos h3] at hmem
          exact hst h hmem
        · rw [if_neg h3] at hmem
          by_cases h4 : kw = "port"
          · rw [if_pos h4] at hmem
            exact hst h hmem
          · rw [if_neg h4] at hmem
            by_cases h5 : kw = "identityfile"
            · rw [if_pos h5] at hmem
              exact hst h hmem
            · rw [if_neg h5] at hmem
              by_cases h6 : kw = "include"
              · rw [if_pos h6] at hmem
                cases hcur : st.current with
                | none =>
                  rw [hcur] at hmem
                  dsimp only at hmem
                  rcases List.mem_append.mp hmem with hm | hm
                  · exact hst h hm
                  · exact hinc value h hm
                | some c =>
                  rw [hcur] at hmem
                  dsimp only at hmem
                  by_cases hstar : c.aliasName = "*"
                  · rw [if_pos hstar] at hmem
                    rcases List.mem_append.mp hmem with hm | hm
                    · exact hst h hm
                    · exact hinc value h hm
                  · rw [if_neg hstar] at hmem
                    rcases List.mem_append.mp hmem with hm | hm
                    · exact finalizeHost_starFree st.hosts (some c) hst h hm
                    · exact hinc value h hm
              · rw [if_neg h6] at hmem
                exact hst h hmem

theorem hostSpecAux_aliases (ls : List String) :
    ∀ (p : String) (n : Nat),
    (hostSpecAux ls p n).map SpecEntry.aliasName
      = (ls.filterMap hostDirValue).filter (fun v => v ≠ "*") := by
  induction ls with
  | nil =>
    intro p n
    simp [hostSpecAux]
  | cons l ls ih =>
    intro p n
    rw [hostSpecAux_cons]
    cases hld : hostDirValue l with
    | none =>
      dsimp only
      rw [List.filterMap_cons, hld]
      exact ih l (n + 1)
    | some v =>
      dsimp only
      rw [List.filterMap_cons, hld]
      by_cases hv : v = "*"
      · rw [if_pos hv]
        rw [List.filter_cons_of_neg (by simp [hv])]
        exact ih l (n + 1)
      · rw [if_neg hv]
        rw [List.filter_cons_of_pos (by simp [hv])]
        rw [List.map_cons]
        rw [ih l (n + 1)]

/-- C5: wildcard exclusion. Whenever the Include oracle itself yields no
wildcard hosts, no host whose alias is "*" ever appears in the parser's
output, wherever the `Host *` block sits; and with the trivial oracle the
output aliases are exactly the values of the file's valued `Host` lines,
minus "*", in file order. -/
theorem C5_wildcard_exclusion :
    (∀ (inc : String → List Host),
        (∀ f, ∀ h ∈ inc f, h.aliasName ≠ "*") →
        ∀ (path : String) (lines : List String),
        ∀ h ∈ parseFile inc path lines, h.aliasName ≠ "*")
    ∧ (∀ (path : String) (lines : List String),
        (parseFile noInc path lines).map Host.aliasName
          = (lines.filterMap hostDirValue).filter (fun v => v ≠ "*")) := by
  constructor
  · intro inc hinc path lines
    have hfold : ∀ (ls : List String) (st : ParseState),
        (∀ h ∈ st.hosts, h.aliasName ≠ "*") →
        ∀ h ∈ (ls.foldl (parseStep inc path) st).hosts, h.aliasName ≠ "*" := by
      intro ls
      induction ls with
      | nil => intro st hst; exact hst
      | cons l ls ih =>
        intro st hst
        exact ih _ (parseStep_starFree inc path hinc st l hst)
    intro h hmem
    unfold parseFile at hmem
    exact finalizeHost_starFree _ _
      (hfold lines ⟨[], none, "", 0⟩ (by simp)) h hmem
  · intro path lines
    have h1 : (parseFile noInc path lines).map Host.aliasName
        = ((parseFile noInc path lines).map projHost).map SpecEntry.aliasName := by
      rw [List.map_map]
      rfl
    rw [h1, parseFile_hostSpec, hostSpec, hostSpecAux_aliases]

/-- C5 witness: a file with a `Host *` block in the middle parses to exactly
the non-wildcard aliases, in order. -/
theorem C5_wildcard_exclusion_witness :
    (parseFile noInc "cfg"
        (splitLines "Host a\nHost *\n    Port 2222\nHost b\n")).map
      Host.aliasName
      = ((splitLines "Host a\nHost *\n    Port 2222\nHost b\n").filterMap
          hostDirValue).filter (fun v => v ≠ "*") :=
  C5_wildcard_exclusion.2 "cfg"
    (splitLines "Host a\nHost *\n    Port 2222\nHost b\n")

/-! ## Connection state (`state.go`)

The `State` struct's `Connections` map is modelled as a total function
`String → Int` (a missing key reads as the zero value, as in Go), and
`sort.SliceStable` by descending count as a stable insertion sort. -/

structure State where
  connections : String → Int
  firstRun : Bool

/-- Insert a host into an already-processed list, before the first element
whose count is not strictly greater — the unique stable position for the
descending order of `sort.SliceStable`. -/
def insertByCountDesc (cnt : String → Int) (h : Host) : List Host → List Host
  | [] => [h]
  | x :: xs =>
    if cnt x.aliasName > cnt h.aliasName then x :: insertByCountDesc cnt h xs
    else h :: x :: xs

/-- Stable sort by connection count, descending (`sort.SliceStable` with
`count[i] > count[j]`). -/
def sortByCountDesc (cnt : String → Int) : List Host → List Host
  | [] => []
  | x :: xs => insertByCountDesc cnt x (sortByCountDesc cnt xs)

/-- `FrequentHosts` from `state.go`. -/
def FrequentHosts (s : State) (hosts : List Host) (n : Int) : List Host :=
  let candidates := hosts.filter (fun h => s.connections h.aliasName > 0)
  let sorted := sortByCountDesc s.connections candidates
  if n ≤ 0 ∨ (sorted.length : Int) ≤ n then sorted
  else sorted.take n.toNat

theorem mem_insertByCountDesc (cnt : String → Int) (h : Host) :
    ∀ (l : List Host) (y : Host),
    y ∈ insertByCountDesc cnt h l ↔ y = h ∨ y ∈ l := by
  intro l
  induction l with
  | nil =>
    intro y
    simp [insertByCountDesc]
  | cons x xs ih =>
    intro y
    simp only [insertByCountDesc]
    by_cases hc : cnt x.aliasName > cnt h.aliasName
    · rw [if_pos hc]
      simp only [List.mem_cons, ih]
      tauto
    · rw [if_neg hc]
      simp only [List.mem_cons]

theorem pairwise_insertByCountDesc (cnt : String → Int) (h : Host) :
    ∀ (l : List Host),
    List.Pairwise (fun a b => cnt b.aliasName ≤ cnt a.aliasName) l →
    List.Pairwise (fun a b => cnt b.aliasName ≤ cnt a.aliasName)
      (insertByCountDesc cnt h l) := by
  intro l
  induction l with
  | nil =>
    intro _
    simp [insertByCountDesc]
  | cons x xs ih =>
    intro hl
    rw [List.pairwise_cons] at hl
    obtain ⟨hx, hxs⟩ := hl
    simp only [insertByCountDesc]
    by_cases hc : cnt x.aliasName > cnt h.aliasName
    · rw [if_pos hc]
      rw [List.pairwise_cons]
      refine ⟨?_, ih hxs⟩
      intro y hy
      rcases (mem_insertByCountDesc cnt h xs y).mp hy with hy | hy
      · subst hy
        omega
      · exact hx y hy
    · rw [if_neg hc]
      rw [List.pairwise_cons]
      refine ⟨?_, List.pairwise_cons.mpr ⟨hx, hxs⟩⟩
      intro y hy
      rcases List.mem_cons.mp hy with hy | hy
      · subst hy
        omega
      · have := hx y hy
        omega

theorem pairwise_sortByCountDesc (cnt : String → Int) :
    ∀ l : List Host,
    List.Pairwise (fun a b => cnt b.aliasName ≤ cnt a.aliasName)
      (sortByCountDesc cnt l) := by
  intro l
  induction l with
  | nil => simp [sortByCountDesc]
  | cons x xs ih =>
    simp only [sortByCountDesc]
    exact pairwise_insertByCountDesc cnt x _ ih

theorem filter_insertByCountDesc (cnt : String → Int) (c : Int) (h : Host) :
    ∀ l : List Host,
    (insertByCountDesc cnt h l).filter (fun x => cnt x.aliasName = c)
      = (h :: l).filter (fun x => cnt x.aliasName = c) := by
  intro l
  induction l with
  | nil => rfl
  | cons y ys ih =>
    simp only [insertByCountDesc]
    by_cases hc : cnt y.aliasName > cnt h.aliasName
    · rw [if_pos hc]
      by_cases hyc : cnt y.aliasName = c
      · rw [List.filter_cons_of_pos (by simp [hyc])]
        rw [ih]
        by_cases hhc : cnt h.aliasName = c
        · omega
        · rw [List.filter_cons_of_neg (by simp [hhc]),
            List.filter_cons_of_neg (by simp [hhc]),
            List.filter_cons_of_pos (by simp [hyc])]
      · rw [List.filter_cons_of_neg (by simp [hyc])]
        rw [ih]
        by_cases hhc : cnt h.aliasName = c
        · rw [List.filter_cons_of_pos (by simp [hhc]),
            List.filter_cons_of_pos (by simp [hhc]),
            List.filter_cons_of_neg (by simp [hyc])]
        · rw [List.filter_cons_of_neg (by simp [hhc]),
            List.filter_cons_of_neg (by simp [hhc]),
            List.filter_cons_of_neg (by simp [hyc])]
    · rw [if_neg hc]

theorem filter_sortByCountDesc (cnt : String → Int) (c : Int) :
    ∀ l : List Host,
    (sortByCountDesc cnt l).filter (fun x => cnt x.aliasName = c)
      = l.filter (fun x => cnt x.aliasName = c) := by
  intro l
  induction l with
  | nil => rfl
  | cons x xs ih =>
    simp only [sortByCountDesc]
    rw [filter_insertByCountDesc]
    by_cases hxc : cnt x.aliasName = c
    · rw [List.filter_cons_of_pos (by simp [hxc]),
        List.filter_cons_of_pos (by simp [hxc]), ih]
    · rw [List.filter_cons_of_neg (by simp [hxc]),
        List.filter_cons_of_neg (by simp [hxc]), ih]

/-- C6: `FrequentHosts` (amended). For every positive n the result is the
candidates with positive count, stable-sorted by count descending, truncated
to the first n; the result is always sorted by count descending, and the
sort is stable (for every count value, filtering the sorted list at that
value returns exactly the input's subsequence at that value, in file order).
For n ≤ 0 the code returns ALL candidates instead of the spec's empty
truncation — see the counterexample. -/
theorem C6_frequentHosts :
    (∀ (s : State) (hosts : List Host) (n : Int), 0 < n →
        FrequentHosts s hosts n
          = (sortByCountDesc s.connections
              (hosts.filter (fun h => s.connections h.aliasName > 0))).take
              n.toNat)
    ∧ (∀ (s : State) (hosts : List Host) (n : Int),
        List.Pairwise
          (fun a b => s.connections b.aliasName ≤ s.connections a.aliasName)
          (FrequentHosts s hosts n))
    ∧ (∀ (cnt : String → Int) (c : Int) (l : List Host),
        (sortByCountDesc cnt l).filter (fun x => cnt x.aliasName = c)
          = l.filter (fun x => cnt x.aliasName = c)) := by
  refine ⟨?_, ?_, fun cnt c l => filter_sortByCountDesc cnt c l⟩
  · intro s hosts n hn
    unfold FrequentHosts
    dsimp only
    by_cases hbig : ((sortByCountDesc s.connections
        (hosts.filter (fun h => s.connections h.aliasName > 0))).length : Int)
        ≤ n
    · rw [if_pos (Or.inr hbig)]
      exact (List.take_of_length_le (by omega)).symm
    · rw [if_neg (by omega : ¬ (n ≤ 0 ∨ ((sortByCountDesc s.connections
        (hosts.filter (fun h => s.connections h.aliasName > 0))).length : Int)
        ≤ n))]
  · intro s hosts n
    unfold FrequentHosts
    dsimp only
    by_cases hcond : n ≤ 0 ∨ ((sortByCountDesc s.connections
        (hosts.filter (fun h => s.connections h.aliasName > 0))).length : Int)
        ≤ n
    · rw [if_pos hcond]
      exact pairwise_sortByCountDesc s.connections _
    · rw [if_neg hcond]
      exact (pairwise_sortByCountDesc s.connections _).sublist
        (List.take_sublist _ _)

/-- Counterexample to the literal C6: with one candidate of positive count
and n = 0, the code returns the whole candidate list while the claim's
unconditional truncation to the first n = 0 elements is empty. -/
theorem C6_counterexample :
    FrequentHosts ⟨fun _ => 1, false⟩
        [{ aliasName := "a", hostname := "", user := "", port := "",
           identityFile := "", groups := [], sourceFile := "",
           lineStart := 0 }] 0
      = [{ aliasName := "a", hostname := "", user := "", port := "",
           identityFile := "", groups := [], sourceFile := "",
           lineStart := 0 }]
    ∧ (sortByCountDesc (fun _ => (1 : Int))
        (([{ aliasName := "a", hostname := "", user := "", port := "",
             identityFile := "", groups := [], sourceFile := "",
             lineStart := 0 }] : List Host).filter
          (fun h => (fun _ => (1 : Int)) h.aliasName > 0))).take
        ((0 : Int)).toNat
      = [] := by
  refine ⟨by decide, by decide⟩

/-- C6 witness: the truncation formula applied at n = 1 to two candidates
with distinct counts. -/
theorem C6_frequentHosts_witness :
    FrequentHosts ⟨fun a => if a = "b" then 5 else 1, false⟩
        [{ aliasName := "a", hostname := "", user := "", port := "",
           identityFile := "", groups := [], sourceFile := "",
           lineStart := 0 },
         { aliasName := "b", hostname := "", user := "", port := "",
           identityFile := "", groups := [], sourceFile := "",
           lineStart := 0 }] 1
      = (sortByCountDesc (fun a => if a = "b" then 5 else 1)
          (([{ aliasName := "a", hostname := "", user := "", port := "",
               identityFile := "", groups := [], sourceFile := "",
               lineStart := 0 },
             { aliasName := "b", hostname := "", user := "", port := "",
               identityFile := "", groups := [], sourceFile := "",
               lineStart := 0 }] : List Host).filter
            (fun h => (fun a => if a = "b" then (5 : Int) else 1) h.aliasName
              > 0))).take ((1 : Int)).toNat :=
  C6_frequentHosts.1 ⟨fun a => if a = "b" then 5 else 1, false⟩
    [{ aliasName := "a", hostname := "", user := "", port := "",
       identityFile := "", groups := [], sourceFile := "", lineStart := 0 },
     { aliasName := "b", hostname := "", user := "", port := "",
       identityFile := "", groups := [], sourceFile := "", lineStart := 0 }]
    1 (by decide)

/-- The outcome of `os.ReadFile` in `Load`: the file is missing
(`os.IsNotExist`), some other I/O error occurred, or contents were read. -/
inductive ReadResult where
  | missing
  | ioError
  | content (data : String)

/-- `Load` from `state.go`.  `json.Unmarshal` is abstracted by the `decode`
oracle (`none` = malformed JSON); the nil-map guard is absorbed by the
total-function model of the connections map. -/
def Load (read : ReadResult) (decode : String → Option State) :
    Except Unit State :=
  match read with
  | .missing => .ok ⟨fun _ => 0, true⟩
  | .ioError => .error ()
  | .content data =>
    match decode data with
    | none => .ok ⟨fun _ => 0, false⟩
    | some st => .ok st

/-- C7: `Load` (amended).  A missing state file yields empty counts with
`firstRun = true`; malformed JSON yields empty counts with
`firstRun = false`; a decodable file yields the decoded state — but, against
the claim, `Load` CAN fail: it returns the error of any read failure other
than file-not-found, and those are exactly its failures. -/
theorem C7_load_never_fails :
    (∀ decode, Load .missing decode = .ok ⟨fun _ => 0, true⟩)
    ∧ (∀ decode data, decode data = none →
        Load (.content data) decode = .ok ⟨fun _ => 0, false⟩)
    ∧ (∀ decode data st, decode data = some st →
        Load (.content data) decode = .ok st)
    ∧ (∀ decode read, (∃ e, Load read decode = .error e) ↔ read = .ioError) := by
  refine ⟨fun decode => rfl, ?_, ?_, ?_⟩
  · intro decode data hd
    simp only [Load, hd]
  · intro decode data st hd
    simp only [Load, hd]
  · intro decode read
    constructor
    · intro ⟨e, he⟩
      cases read with
      | missing => exact Except.noConfusion he
      | ioError => rfl
      | content data =>
        simp only [Load] at he
        cases hd : decode data with
        | none =>
          simp only [hd] at he
          exact Except.noConfusion he
        | some st =>
          simp only [hd] at he
          exact Except.noConfusion he
    · intro hr
      subst hr
      exact ⟨(), rfl⟩

/-- Counterexample to the literal C7: a read failure that is not
file-not-found is returned as an error, so `Load` does not "never fail". -/
theorem C7_counterexample :
    Load .ioError (fun _ => none) = .error () := rfl

/-- C7 witness: a malformed state file loads as a fresh non-first-run
state. -/
theorem C7_load_never_fails_witness :
    Load (.content "not json") (fun _ => none)
      = .ok ⟨fun _ => 0, false⟩ :=
  C7_load_never_fails.2.1 (fun _ => none) "not json" rfl

/-! ## Passthrough target extraction (`cmd/sssh/main.go`) -/

structure SSHTarget where
  dest : String
  port : String
  user : String
  identity : String
deriving Repr, DecidableEq

/-- The SSH options that consume the next argument as their value
(the `optWithValue` map of `parseSSHTarget`). -/
def optWithValue (arg : String) : Bool :=
  ["-b", "-c", "-D", "-E", "-e", "-F", "-I", "-i", "-J", "-L",
   "-l", "-m", "-o", "-p", "-Q", "-R", "-S", "-w", "-W"].contains arg

/-- The scanning loop of `parseSSHTarget`.  `-p`, `-l` and `-i` capture their
values; other value-consuming options are skipped with their value; the
destination is assigned from the first non-hyphenated argument while it is
still empty (assigning an empty argument is a no-op, as in the Go code). -/
def parseSSHTargetAux : List String → SSHTarget → SSHTarget
  | [], acc => acc
  | arg :: rest, acc =>
    if arg = "-p" then
      match rest with
      | v :: tail => parseSSHTargetAux tail { acc with port := v }
      | [] => acc
    else if arg = "-l" then
      match rest with
      | v :: tail => parseSSHTargetAux tail { acc with user := v }
      | [] => acc
    else if arg = "-i" then
      match rest with
      | v :: tail => parseSSHTargetAux tail { acc with identity := v }
      | [] => acc
    else if optWithValue arg then
      match rest with
      | _ :: tail => parseSSHTargetAux tail acc
      | [] =>
        if ¬ hasPfx arg "-" ∧ acc.dest = "" then { acc with dest := arg }
        else acc
    else if ¬ hasPfx arg "-" ∧ acc.dest = "" then
      parseSSHTargetAux rest { acc with dest := arg }
    else parseSSHTargetAux rest acc

/-- `parseSSHTarget` from `main.go`. -/
def parseSSHTarget (args : List String) : SSHTarget :=
  parseSSHTargetAux args ⟨"", "", "", ""⟩

/-- The destination `parseSSHTarget` actually extracts: the first NON-EMPTY
non-hyphenated argument that is not consumed as an option value. -/
def firstPositional : List String → Option String
  | [] => none
  | arg :: rest =>
    if arg = "-p" ∨ arg = "-l" ∨ arg = "-i" then
      match rest with
      | _ :: tail => firstPositional tail
      | [] => none
    else if optWithValue arg then
      match rest with
      | _ :: tail => firstPositional tail
      | [] => if ¬ hasPfx arg "-" ∧ arg ≠ "" then some arg else none
    else if ¬ hasPfx arg "-" ∧ arg ≠ "" then some arg
    else firstPositional rest

/-- The user/hostname split and port defaulting of `runPassthrough`:
`(hostname, user, port)`. -/
def resolveTarget (t : SSHTarget) : String × String × String :=
  let hu : String × String :=
    match splitFirstChar '@' t.dest.data with
    | some p =>
        (⟨p.2⟩, if t.user = "" then (⟨p.1⟩ : String) else t.user)
    | none => (t.dest, t.user)
  (hu.1, hu.2, if t.port = "" then "22" else t.port)

theorem parseSSHTargetAux_dest_ne :
    ∀ (n : Nat) (args : List String), args.length ≤ n →
    ∀ acc : SSHTarget, acc.dest ≠ "" →
    (parseSSHTargetAux args acc).dest = acc.dest := by
  intro n
  induction n with
  | zero =>
    intro args hlen acc hacc
    have hargs : args = [] := List.eq_nil_of_length_eq_zero (by omega)
    subst hargs
    rfl
  | succ n ih =>
    intro args hlen acc hacc
    cases args with
    | nil => rfl
    | cons arg rest =>
      simp only [List.length_cons] at hlen
      cases rest with
      | nil =>
        rw [parseSSHTargetAux.eq_3]
        by_cases hp : arg = "-p"
        · rw [if_pos hp]
        · rw [if_neg hp]
          by_cases hl : arg = "-l"
          · rw [if_pos hl]
          · rw [if_neg hl]
            by_cases hi : arg = "-i"
            · rw [if_pos hi]
            · rw [if_neg hi]
              by_cases ho : optWithValue arg = true
              · rw [if_pos ho, if_neg (fun hc => hacc hc.2)]
              · rw [if_neg ho, if_neg (fun hc => hacc hc.2)]
                rfl
      | cons v tail =>
        simp only [List.length_cons] at hlen
        rw [parseSSHTargetAux.eq_2]
        by_cases hp : arg = "-p"
        · rw [if_pos hp]
          exact ih tail (by omega) _ hacc
        · rw [if_neg hp]
          by_cases hl : arg = "-l"
          · rw [if_pos hl]
            exact ih tail (by omega) _ hacc
          · rw [if_neg hl]
            by_cases hi : arg = "-i"
            · rw [if_pos hi]
              exact ih tail (by omega) _ hacc
            · rw [if_neg hi]
              by_cases ho : optWithValue arg = true
              · rw [if_pos ho]
                exact ih tail (by omega) _ hacc
              · rw [if_neg ho, if_neg (fun hc => hacc hc.2)]
                exact ih (v :: tail) (by simp only [List.length_cons]; omega) _ hacc

theorem parseSSHTargetAux_dest :
    ∀ (n : Nat) (args : List String), args.length ≤ n →
    ∀ acc : SSHTarget, acc.dest = "" →
    (parseSSHTargetAux args acc).dest = (firstPositional args).getD "" := by
  intro n
  induction n with
  | zero =>
    intro args hlen acc hacc
    have hargs : args = [] := List.eq_nil_of_length_eq_zero (by omega)
    subst hargs
    exact hacc
  | succ n ih =>
    intro args hlen acc hacc
    cases args with
    | nil => exact hacc
    | cons arg rest =>
      simp only [List.length_cons] at hlen
      cases rest with
      | nil =>
        rw [parseSSHTargetAux.eq_3, firstPositional.eq_3]
        by_cases hp : arg = "-p"
        · rw [if_pos hp, if_pos (Or.inl hp)]
          exact hacc
        · by_cases hl : arg = "-l"
          · rw [if_neg hp, if_pos hl, if_pos (Or.inr (Or.inl hl))]
            exact hacc
          · by_cases hi : arg = "-i"
            · rw [if_neg hp, if_neg hl, if_pos hi, if_pos (Or.inr (Or.inr hi))]
              exact hacc
            · rw [if_neg hp, if_neg hl, if_neg hi,
                if_neg (fun hc : arg = "-p" ∨ arg = "-l" ∨ arg = "-i" =>
                  hc.elim hp (fun h2 => h2.elim hl hi))]
              by_cases ho : optWithValue arg = true
              · rw [if_pos ho, if_pos ho]
                by_cases hpfx : hasPfx arg "-" = true
                · rw [if_neg (fun hc => hc.1 hpfx), if_neg (fun hc => hc.1 hpfx)]
                  exact hacc
                · by_cases harg : arg = ""
                  · rw [if_pos ⟨hpfx, hacc⟩, if_neg (fun hc => hc.2 harg)]
                    exact harg
                  · rw [if_pos ⟨hpfx, hacc⟩, if_pos ⟨hpfx, harg⟩]
                    rfl
              · rw [if_neg ho, if_neg ho]
                by_cases hpfx : hasPfx arg "-" = true
                · rw [if_neg (fun hc => hc.1 hpfx), if_neg (fun hc => hc.1 hpfx)]
                  exact hacc
                · by_cases harg : arg = ""
                  · rw [if_pos ⟨hpfx, hacc⟩, if_neg (fun hc => hc.2 harg)]
                    exact harg
                  · rw [if_pos ⟨hpfx, hacc⟩, if_pos ⟨hpfx, harg⟩]
                    rfl
      | cons v tail =>
        simp only [List.length_cons] at hlen
        rw [parseSSHTargetAux.eq_2, firstPositional.eq_2]
        by_cases hp : arg = "-p"
        · rw [if_pos hp, if_pos (Or.inl hp)]
          exact ih tail (by omega) _ hacc
        · by_cases hl : arg = "-l"
          · rw [if_neg hp, if_pos hl, if_pos (Or.inr (Or.inl hl))]
            exact ih tail (by omega) _ hacc
          · by_cases hi : arg = "-i"
            · rw [if_neg hp, if_neg hl, if_pos hi, if_pos (Or.inr (Or.inr hi))]
              exact ih tail (by omega) _ hacc
            · rw [if_neg hp, if_neg hl, if_neg hi,
                if_neg (fun hc : arg = "-p" ∨ arg = "-l" ∨ arg = "-i" =>
                  hc.elim hp (fun h2 => h2.elim hl hi))]
              by_cases ho : optWithValue arg = true
              · rw [if_pos ho, if_pos ho]
                exact ih tail (by omega) acc hacc
              · rw [if_neg ho, if_neg ho]
                by_cases hpfx : hasPfx arg "-" = true
                · rw [if_neg (fun hc => hc.1 hpfx), if_neg (fun hc => hc.1 hpfx)]
                  exact ih (v :: tail) (by simp only [List.length_cons]; omega) acc hacc
                · by_cases harg : arg = ""
                  · rw [if_pos ⟨hpfx, hacc⟩, if_neg (fun hc => hc.2 harg)]
                    exact ih (v :: tail) (by simp only [List.length_cons]; omega) _ harg
                  · rw [if_pos ⟨hpfx, hacc⟩, if_pos ⟨hpfx, harg⟩]
                    have h1 := parseSSHTargetAux_dest_ne (v :: tail).length
                      (v :: tail) (Nat.le_refl _) { acc with dest := arg } harg
                    rw [h1]
                    rfl

/-- C8: passthrough target extraction (amended). The destination is the
first NON-EMPTY argument that neither begins with "-" nor is consumed as an
option value (an empty argument is skipped, against the claim's "first
positional" — see the counterexample); a destination containing "@" is split
at its first "@" into user and hostname with an explicit `-l` user taking
precedence, and the port defaults to "22" exactly when none was provided. -/
theorem C8_target_extraction :
    (∀ args : List String,
        (parseSSHTarget args).dest = (firstPositional args).getD "")
    ∧ (∀ t : SSHTarget, ∀ p : List Char × List Char,
        splitFirstChar '@' t.dest.data = some p →
        (resolveTarget t).1 = (⟨p.2⟩ : String)
        ∧ (resolveTarget t).2.1
            = (if t.user = "" then (⟨p.1⟩ : String) else t.user))
    ∧ (∀ t : SSHTarget, splitFirstChar '@' t.dest.data = none →
        (resolveTarget t).1 = t.dest ∧ (resolveTarget t).2.1 = t.user)
    ∧ (∀ t : SSHTarget,
        (resolveTarget t).2.2 = (if t.port = "" then "22" else t.port)) := by
  refine ⟨?_, ?_, ?_, ?_⟩
  · intro args
    exact parseSSHTargetAux_dest args.length args (Nat.le_refl _) ⟨"", "", "", ""⟩ rfl
  · intro t p hp
    simp only [resolveTarget, hp]
    exact ⟨trivial, trivial⟩
  · intro t hp
    simp only [resolveTarget, hp]
    exact ⟨trivial, trivial⟩
  · intro t
    rfl

/-- Counterexample to the literal C8: in `["", "host"]` the first argument
that does not begin with "-" is the empty string, yet extraction skips it
and returns "host" as the destination. -/
theorem C8_counterexample :
    hasPfx "" "-" = false
    ∧ (parseSSHTarget ["", "host"]).dest = "host"
    ∧ ("host" : String) ≠ "" := by
  refine ⟨by decide, by decide, by decide⟩

/-- C8 witness: extraction on an argument list that skips two option-value
pairs before the destination. -/
theorem C8_target_extraction_witness :
    (parseSSHTarget ["-p", "2222", "-l", "root", "box.example.com"]).dest
      = (firstPositional ["-p", "2222", "-l", "root", "box.example.com"]).getD
        "" :=
  C8_target_extraction.1 ["-p", "2222", "-l", "root", "box.example.com"]

/-! ## Cursor movement (`tui/keybindings.go`)

Only the fields read or written by the cursor-move handlers are modelled;
Go's `%` on the non-negative operands involved is `Int.tmod`. -/

structure Model where
  filtered : List Host
  cursor : Int
  viewport : Int
  viewHeight : Int

/-- `moveCursorDown` from `keybindings.go`: advance with wrap-around to the
top, then scroll the viewport if the cursor left the window. -/
def moveCursorDown (m : Model) : Model :=
  if m.filtered.length = 0 then m
  else
    let m := { m with cursor := (m.cursor + 1).tmod (m.filtered.length : Int) }
    if m.cursor = 0 then { m with viewport := 0 }
    else if m.cursor ≥ m.viewport + m.viewHeight then
      { m with viewport := m.cursor - m.viewHeight + 1 }
    else m

/-- `moveCursorUp` from `keybindings.go`: retreat with wrap-around to the
bottom, then scroll the viewport if the cursor left the window. -/
def moveCursorUp (m : Model) : Model :=
  if m.filtered.length = 0 then m
  else
    let m := { m with cursor :=
      (m.cursor - 1 + (m.filtered.length : Int)).tmod (m.filtered.length : Int) }
    if m.cursor = (m.filtered.length : Int) - 1 then
      { m with viewport := max 0 ((m.filtered.length : Int) - m.viewHeight) }
    else if m.cursor < m.viewport then { m with viewport := m.cursor }
    else m

/-- The documented list-screen invariant. -/
def ModelInv (m : Model) : Prop :=
  0 ≤ m.cursor ∧ m.cursor < (m.filtered.length : Int)
  ∧ m.viewport ≤ m.cursor ∧ m.cursor < m.viewport + m.viewHeight

/-- A sequence of cursor moves (`true` = down, `false` = up). -/
def applyMoves (moves : List Bool) (m : Model) : Model :=
  moves.foldl (fun m mv => if mv then moveCursorDown m else moveCursorUp m) m

theorem moveCursorDown_inv (m : Model) (hvh : 1 ≤ m.viewHeight)
    (hne : m.filtered ≠ []) (hinv : ModelInv m) :
    ModelInv (moveCursorDown m)
    ∧ (moveCursorDown m).filtered = m.filtered
    ∧ (moveCursorDown m).viewHeight = m.viewHeight := by
  obtain ⟨hc0, hclen, hvp, hcw⟩ := hinv
  have hlen : 1 ≤ (m.filtered.length : Int) := by
    have := List.length_pos.mpr hne
    omega
  have hlen0 : ¬ m.filtered.length = 0 := by omega
  unfold moveCursorDown
  rw [if_neg hlen0]
  dsimp only
  by_cases hwrap : m.cursor + 1 = (m.filtered.length : Int)
  · have hc : (m.cursor + 1).tmod (m.filtered.length : Int) = 0 := by
      rw [Int.tmod_eq_emod (by omega) (by omega), hwrap]
      exact Int.emod_self
    rw [hc]
    rw [if_pos rfl]
    refine ⟨⟨?_, ?_, ?_, ?_⟩, rfl, rfl⟩
    all_goals dsimp only
    all_goals omega
  · have hc : (m.cursor + 1).tmod (m.filtered.length : Int) = m.cursor + 1 := by
      rw [Int.tmod_eq_emod (by omega) (by omega)]
      exact Int.emod_eq_of_lt (by omega) (by omega)
    rw [hc]
    rw [if_neg (by omega : ¬ m.cursor + 1 = 0)]
    by_cases hout : m.cursor + 1 ≥ m.viewport + m.viewHeight
    · rw [if_pos hout]
      refine ⟨⟨?_, ?_, ?_, ?_⟩, rfl, rfl⟩
      all_goals dsimp only
      all_goals omega
    · rw [if_neg hout]
      refine ⟨⟨?_, ?_, ?_, ?_⟩, rfl, rfl⟩
      all_goals dsimp only
      all_goals omega

theorem moveCursorUp_inv (m : Model) (hvh : 1 ≤ m.viewHeight)
    (hne : m.filtered ≠ []) (hinv : ModelInv m) :
    ModelInv (moveCursorUp m)
    ∧ (moveCursorUp m).filtered = m.filtered
    ∧ (moveCursorUp m).viewHeight = m.viewHeight := by
  obtain ⟨hc0, hclen, hvp, hcw⟩ := hinv
  have hlen : 1 ≤ (m.filtered.length : Int) := by
    have := List.length_pos.mpr hne
    omega
  have hlen0 : ¬ m.filtered.length = 0 := by omega
  unfold moveCursorUp
  rw [if_neg hlen0]
  dsimp only
  by_cases hwrap : m.cursor = 0
  · have hc : (m.cursor - 1 + (m.filtered.length : Int)).tmod
        (m.filtered.length : Int) = (m.filtered.length : Int) - 1 := by
      rw [Int.tmod_eq_emod (by omega) (by omega)]
      rw [(by omega : m.cursor - 1 + (m.filtered.length : Int)
        = (m.filtered.length : Int) - 1)]
      exact Int.emod_eq_of_lt (by omega) (by omega)
    rw [hc]
    rw [if_pos rfl]
    refine ⟨⟨?_, ?_, ?_, ?_⟩, rfl, rfl⟩
    all_goals dsimp only
    · omega
    · omega
    · rcases le_or_lt ((m.filtered.length : Int) - m.viewHeight) 0 with hmx | hmx
      · rw [max_eq_left hmx]
        omega
      · rw [max_eq_right (by omega)]
        omega
    · rcases le_or_lt ((m.filtered.length : Int) - m.viewHeight) 0 with hmx | hmx
      · rw [max_eq_left hmx]
        omega
      · rw [max_eq_right (by omega)]
        omega
  · have hc : (m.cursor - 1 + (m.filtered.length : Int)).tmod
        (m.filtered.length : Int) = m.cursor - 1 := by
      rw [Int.tmod_eq_emod (by omega) (by omega)]
      rw [Int.add_emod_self]
      exact Int.emod_eq_of_lt (by omega) (by omega)
    rw [hc]
    rw [if_neg (by omega : ¬ m.cursor - 1 = (m.filtered.length : Int) - 1)]
    by_cases hlo : m.cursor - 1 < m.viewport
    · rw [if_pos hlo]
      refine ⟨⟨?_, ?_, ?_, ?_⟩, rfl, rfl⟩
      all_goals dsimp only
      all_goals omega
    · rw [if_neg hlo]
      refine ⟨⟨?_, ?_, ?_, ?_⟩, rfl, rfl⟩
      all_goals dsimp only
      all_goals omega

/-- C9: viewport containment. From any state with `viewHeight ≥ 1`,
non-empty `filtered` and the on-screen invariant
`viewport ≤ cursor < viewport + viewHeight` (with the cursor in range),
every sequence of cursor moves (down with wrap to the top, up with wrap to
the bottom) preserves the invariant. -/
theorem C9_viewport_containment :
    ∀ m : Model, 1 ≤ m.viewHeight → m.filtered ≠ [] → ModelInv m →
    ∀ moves : List Bool, ModelInv (applyMoves moves m) := by
  intro m hvh hne hinv moves
  induction moves generalizing m with
  | nil => exact hinv
  | cons mv moves ih =>
    show ModelInv (applyMoves moves (if mv then moveCursorDown m else moveCursorUp m))
    cases mv with
    | true =>
      rw [if_pos rfl]
      obtain ⟨h1, h2, h3⟩ := moveCursorDown_inv m hvh hne hinv
      exact ih _ (by rw [h3]; exact hvh) (by rw [h2]; exact hne) h1
    | false =>
      rw [if_neg (by simp : ¬ (false = true))]
      obtain ⟨h1, h2, h3⟩ := moveCursorUp_inv m hvh hne hinv
      exact ih _ (by rw [h3]; exact hvh) (by rw [h2]; exact hne) h1

/-- C9 witness: three moves on a two-row list with a one-row window. -/
theorem C9_viewport_containment_witness :
    ModelInv (applyMoves [true, true, false]
      { filtered := [{ aliasName := "a", hostname := "", user := "", port := "",
                       identityFile := "", groups := [], sourceFile := "",
                       lineStart := 0 },
                     { aliasName := "b", hostname := "", user := "", port := "",
                       identityFile := "", groups := [], sourceFile := "",
                       lineStart := 0 }],
        cursor := 0, viewport := 0, viewHeight := 1 }) :=
  C9_viewport_containment
    { filtered := [{ aliasName := "a", hostname := "", user := "", port := "",
                     identityFile := "", groups := [], sourceFile := "",
                     lineStart := 0 },
                   { aliasName := "b", hostname := "", user := "", port := "",
                     identityFile := "", groups := [], sourceFile := "",
                     lineStart := 0 }],
      cursor := 0, viewport := 0, viewHeight := 1 }
    (by decide) (by decide) ⟨by decide, by decide, by decide, by decide⟩
    [true, true, false]

/-! ## File-system effects of `ReplaceHostBlock` (`config/writer.go`)

The writer's I/O is threaded explicitly: `FS` holds the config file and its
`.bak`/`.tmp` siblings, and an oracle decides which of the four effectful
steps (read, backup write, temp write, rename) succeed, in the order the Go
code performs them.  The pure middle section is the already-verified
`ReplaceHostBlock`. -/

structure FS where
  config : String
  bak : Option String
  tmp : Option String
deriving Repr, DecidableEq

structure FSOracle where
  readOk : Bool
  bakOk : Bool
  tmpOk : Bool
  renameOk : Bool
deriving Repr, DecidableEq

inductive WriteError where
  | stale (e : ReplaceError)
  | readFail
  | bakFail
  | tmpFail
  | renameFail
deriving Repr, DecidableEq

/-- `ReplaceHostBlock` with its file-system effects, in source order:
lineStart check, read, backup write, pure rebuild (range and stale checks
included), temp write, atomic rename.  A failed rename leaves the `.tmp`
file behind, as the code does not clean it up. -/
def replaceHostBlockIO (h : Host) (o : FSOracle) (fs : FS) :
    FS × Except WriteError (String × Nat × Int) :=
  if h.lineStart = 0 then (fs, .error (.stale .staleZero))
  else if ¬ o.readOk then (fs, .error .readFail)
  else if ¬ o.bakOk then (fs, .error .bakFail)
  else
    let raw := fs.config
    let fs1 : FS := { fs with bak := some raw }
    match ReplaceHostBlock h raw with
    | .error e => (fs1, .error (.stale e))
    | .ok r =>
      if ¬ o.tmpOk then (fs1, .error .tmpFail)
      else
        let fs2 : FS := { fs1 with tmp := some r.output }
        if ¬ o.renameOk then (fs2, .error .renameFail)
        else ({ fs2 with config := r.output, tmp := none },
              .ok (r.output, r.newLineStart, r.lineDelta))

/-- C10: error atomicity. Whenever the writer returns an error — stale
reference, out-of-range lineStart, read, backup/temp write, or rename
failure — the configuration file's contents are unchanged; only the `.bak`
and `.tmp` siblings may have been written. -/
theorem C10_error_atomicity :
    ∀ (h : Host) (o : FSOracle) (fs : FS) (e : WriteError) (fs' : FS),
      replaceHostBlockIO h o fs = (fs', .error e) →
      fs'.config = fs.config := by
  intro h o fs e fs' hrep
  unfold replaceHostBlockIO at hrep
  by_cases h0 : h.lineStart = 0
  · rw [if_pos h0] at hrep
    injection hrep with h1 h2
    rw [← h1]
  · rw [if_neg h0] at hrep
    by_cases hread : ¬ o.readOk = true
    · rw [if_pos hread] at hrep
      injection hrep with h1 h2
      rw [← h1]
    · rw [if_neg hread] at hrep
      by_cases hbak : ¬ o.bakOk = true
      · rw [if_pos hbak] at hrep
        injection hrep with h1 h2
        rw [← h1]
      · rw [if_neg hbak] at hrep
        dsimp only at hrep
        cases hcore : ReplaceHostBlock h fs.config with
        | error ec =>
          rw [hcore] at hrep
          injection hrep with h1 h2
          rw [← h1]
        | ok r =>
          rw [hcore] at hrep
          dsimp only at hrep
          by_cases htmp : ¬ o.tmpOk = true
          · rw [if_pos htmp] at hrep
            injection hrep with h1 h2
            rw [← h1]
          · rw [if_neg htmp] at hrep
            by_cases hren : ¬ o.renameOk = true
            · rw [if_pos hren] at hrep
              injection hrep with h1 h2
              rw [← h1]
            · rw [if_neg hren] at hrep
              injection hrep with h1 h2
              exact Except.noConfusion h2

/-- C10 witness: a rename failure leaves the original contents in place,
with the backup and temp files written. -/
theorem C10_error_atomicity_witness :
    ({ config := "Host a\n", bak := some "Host a\n",
       tmp := some "Host a\n    Hostname \n" } : FS).config
      = ({ config := "Host a\n", bak := none, tmp := none } : FS).config :=
  C10_error_atomicity
    { aliasName := "a", hostname := "", user := "", port := "22",
      identityFile := "", groups := [], sourceFile := "cfg", lineStart := 1 }
    { readOk := true, bakOk := true, tmpOk := true, renameOk := false }
    { config := "Host a\n", bak := none, tmp := none }
    .renameFail
    { config := "Host a\n", bak := some "Host a\n",
      tmp := some "Host a\n    Hostname \n" }
    (by decide)

end SwiftSSH